import Mathlib

/-!
# Shallow embedding of the hybrid recommendation engine

This file embeds the recommendation engine of
`backend/app/services/recommendation_service.py` (class `RecommendationService`)
and proves properties of it.

Modelling conventions:
* Python floats are modelled as rationals (`ℚ`); `math.sqrt` (used only by the
  Pearson correlation) is an explicit function parameter `sqrt : ℚ → ℚ`, so
  statements about it carry the square-root facts they need as hypotheses.
* Python dicts are association lists with insertion-order semantics:
  `dinsert` overwrites in place or appends, exactly like `d[k] = v`.
* Database rows are explicit structures; each SQL query is translated to the
  corresponding list computation.  The row order of a SQL result without a
  final `ORDER BY` (and of a `UNION`) is unspecified, so functions consuming
  such results take the row list as an argument and theorems quantify over
  the realizable orders; `ORDER BY` is modelled as a stable merge sort.
* External library calls that are not code of this repository
  (sklearn's `cosine_similarity`, the trained numpy factor matrices of the
  gradient-descent loop) enter the embedding as oracle function parameters.
-/

namespace RecSys

/-- Python dict update `d[k] = v`: overwrite the (unique) binding of `k` in
place if present, otherwise append the new binding.  Insertion order is
preserved, as for a Python dict. -/
def dinsert : List (String × α) → String → α → List (String × α)
  | [], k, v => [(k, v)]
  | p :: rest, k, v => if p.1 == k then (k, v) :: rest else p :: dinsert rest k v

theorem lookup_dinsert_self (l : List (String × α)) (k : String) (v : α) :
    List.lookup k (dinsert l k v) = some v := by
  induction l with
  | nil => simp [dinsert]
  | cons p rest ih =>
    by_cases h : p.1 = k
    · simp [dinsert, h]
    · have hk : (k == p.1) = false := by
        simp [beq_iff_eq]; exact fun hkk => h hkk.symm
      simp [dinsert, h, List.lookup, hk, ih]

theorem lookup_dinsert_ne (l : List (String × α)) (k k' : String) (v : α)
    (h : k' ≠ k) : List.lookup k' (dinsert l k v) = List.lookup k' l := by
  induction l with
  | nil => simp [dinsert, List.lookup, beq_false_of_ne h]
  | cons p rest ih =>
    by_cases hp : p.1 = k
    · subst hp
      simp [dinsert, List.lookup, beq_false_of_ne h]
    · simp only [dinsert, beq_iff_eq, hp, if_false]
      by_cases hk' : k' = p.1
      · simp [List.lookup, hk']
      · simp [List.lookup, beq_false_of_ne hk', ih]

/-- Keys of a dict after an update: unchanged if the key was present,
the new key appended otherwise. -/
theorem keys_dinsert (l : List (String × α)) (k : String) (v : α) :
    (dinsert l k v).map Prod.fst =
      if k ∈ l.map Prod.fst then l.map Prod.fst else l.map Prod.fst ++ [k] := by
  induction l with
  | nil => simp [dinsert]
  | cons p rest ih =>
    by_cases hp : p.1 = k
    · simp [dinsert, hp]
    · have : k ∈ (p :: rest).map Prod.fst ↔ k ∈ rest.map Prod.fst := by
        simp [hp, Ne.symm hp]
      simp only [dinsert, beq_iff_eq, hp, if_false, List.map_cons, ih]
      by_cases hm : k ∈ rest.map Prod.fst <;> simp [hm, this, hp, Ne.symm hp]

theorem mem_keys_dinsert (l : List (String × α)) (k k' : String) (v : α) :
    k' ∈ (dinsert l k v).map Prod.fst ↔ k' ∈ l.map Prod.fst ∨ k' = k := by
  rw [keys_dinsert]
  by_cases hm : k ∈ l.map Prod.fst
  · simp only [hm, if_true]
    constructor
    · exact Or.inl
    · rintro (h | rfl)
      · exact h
      · exact hm
  · simp [hm]

theorem nodup_keys_dinsert (l : List (String × α)) (k : String) (v : α)
    (h : (l.map Prod.fst).Nodup) : ((dinsert l k v).map Prod.fst).Nodup := by
  rw [keys_dinsert]
  by_cases hm : k ∈ l.map Prod.fst
  · simpa [hm] using h
  · simpa [hm] using List.Nodup.append h (List.nodup_singleton k) (by simpa using hm)

/-- With duplicate-free keys, association-list membership agrees with lookup. -/
theorem mem_iff_lookup_of_nodup (l : List (String × α)) (k : String) (v : α)
    (h : (l.map Prod.fst).Nodup) : (k, v) ∈ l ↔ List.lookup k l = some v := by
  induction l with
  | nil => simp [List.lookup]
  | cons p rest ih =>
    obtain ⟨p1, p2⟩ := p
    simp only [List.map_cons, List.nodup_cons] at h
    by_cases hk : k = p1
    · subst hk
      have hr : ¬ (k, v) ∈ rest := fun hm => h.1 (List.mem_map_of_mem Prod.fst hm)
      constructor
      · intro hm
        rcases List.mem_cons.mp hm with he | hm
        · have hv : v = p2 := congrArg Prod.snd he
          simp [List.lookup, hv]
        · exact absurd hm hr
      · intro hl
        simp only [List.lookup, beq_self_eq_true] at hl
        have hv : p2 = v := by injection hl
        exact List.mem_cons.mpr (Or.inl (by rw [hv]))
    · rw [List.mem_cons]
      have h1 : ((k, v) = (p1, p2)) ↔ False := by
        constructor
        · intro he; exact hk (congrArg Prod.fst he)
        · exact False.elim
      simp [List.lookup, beq_false_of_ne hk, h1, ih h.2]

/-- First-encounter deduplication (Python `dict`/insertion-ordered set
iteration; also used to model one realizable iteration order of a Python
`set`, and SQL `UNION` / `GROUP BY` output orders). -/
def dedupFirst [BEq α] (l : List α) : List α :=
  l.foldl (fun acc k => if acc.contains k then acc else acc ++ [k]) []

theorem mem_dedupFirst_aux [BEq α] [LawfulBEq α] (l acc : List α) (a : α) :
    a ∈ l.foldl (fun acc k => if acc.contains k then acc else acc ++ [k]) acc ↔
      a ∈ acc ∨ a ∈ l := by
  induction l generalizing acc with
  | nil => simp
  | cons b rest ih =>
    simp only [List.foldl_cons]
    by_cases hb : acc.contains b
    · rw [if_pos hb, ih]
      constructor
      · rintro (h | h)
        · exact Or.inl h
        · exact Or.inr (List.mem_cons_of_mem b h)
      · rintro (h | h)
        · exact Or.inl h
        · rcases List.mem_cons.mp h with rfl | h
          · exact Or.inl (by simpa using hb)
          · exact Or.inr h
    · rw [if_neg hb, ih]
      simp only [List.mem_append, List.mem_singleton, List.mem_cons]
      tauto

theorem mem_dedupFirst [BEq α] [LawfulBEq α] (l : List α) (a : α) :
    a ∈ dedupFirst l ↔ a ∈ l := by
  rw [dedupFirst, mem_dedupFirst_aux]
  simp

/-- The additive dict-accumulation pattern
`if k not in d: d[k] = 0; d[k] += v` folded over a list of contributions,
shared by the KNN prediction loop and the hybrid score accumulator. -/
def accum [AddMonoid β] (acc : List (String × β)) (items : List (String × β)) :
    List (String × β) :=
  items.foldl (fun acc p => dinsert acc p.1 (((List.lookup p.1 acc).getD 0) + p.2)) acc

/-- Total contribution a key receives from a list of contributions. -/
def sumForKey [AddMonoid β] (items : List (String × β)) (k : String) : β :=
  ((items.filter (fun p => p.1 == k)).map Prod.snd).sum

theorem sumForKey_nil [AddMonoid β] (k : String) : sumForKey ([] : List (String × β)) k = 0 := by
  simp [sumForKey]

theorem sumForKey_cons [AddMonoid β] (p : String × β) (items : List (String × β)) (k : String) :
    sumForKey (p :: items) k =
      if p.1 = k then p.2 + sumForKey items k else sumForKey items k := by
  by_cases h : p.1 = k <;> simp [sumForKey, h]

theorem accum_append [AddMonoid β] (acc : List (String × β))
    (l₁ l₂ : List (String × β)) : accum acc (l₁ ++ l₂) = accum (accum acc l₁) l₂ := by
  simp [accum, List.foldl_append]

/-- Looking a key up in the accumulated dict: its prior value (if any)
plus the total contribution the items make to it. -/
theorem lookup_accum [AddMonoid β] (acc : List (String × β))
    (items : List (String × β)) (k : String) :
    List.lookup k (accum acc items) =
      match List.lookup k acc with
      | some v => some (v + sumForKey items k)
      | none => if k ∈ items.map Prod.fst then some (sumForKey items k) else none := by
  induction items generalizing acc with
  | nil =>
    cases h : List.lookup k acc <;> simp [accum, h, sumForKey_nil]
  | cons p rest ih =>
    obtain ⟨k', w⟩ := p
    rw [show accum acc ((k', w) :: rest) =
      accum (dinsert acc k' (((List.lookup k' acc).getD 0) + w)) rest from rfl, ih]
    by_cases hk : k = k'
    · subst hk
      rw [lookup_dinsert_self]
      cases h : List.lookup k acc with
      | some v => simp [h, sumForKey_cons, add_assoc]
      | none => simp [h, sumForKey_cons, zero_add]
    · rw [lookup_dinsert_ne _ _ _ _ hk]
      cases h : List.lookup k acc with
      | some v => simp [sumForKey_cons, Ne.symm hk]
      | none =>
        simp only [h, sumForKey_cons, if_neg (Ne.symm hk), List.map_cons]
        by_cases hm : k ∈ List.map Prod.fst rest
        · simp [hm, List.mem_cons]
        · simp [hm, List.mem_cons, hk]

theorem keys_accum_mem [AddMonoid β] (acc : List (String × β))
    (items : List (String × β)) (k : String) :
    k ∈ (accum acc items).map Prod.fst ↔
      k ∈ acc.map Prod.fst ∨ k ∈ items.map Prod.fst := by
  induction items generalizing acc with
  | nil => simp [accum]
  | cons p rest ih =>
    rw [show accum acc (p :: rest) =
      accum (dinsert acc p.1 (((List.lookup p.1 acc).getD 0) + p.2)) rest from rfl, ih,
      mem_keys_dinsert]
    simp only [List.map_cons, List.mem_cons]
    tauto

theorem nodup_keys_accum [AddMonoid β] (acc : List (String × β))
    (items : List (String × β)) (h : (acc.map Prod.fst).Nodup) :
    ((accum acc items).map Prod.fst).Nodup := by
  induction items generalizing acc with
  | nil => simpa [accum] using h
  | cons p rest ih =>
    simp only [accum, List.foldl_cons]
    exact ih _ (nodup_keys_dinsert _ _ _ h)

/-- Membership in an accumulated dict built from scratch. -/
theorem mem_accum_iff [AddMonoid β] (items : List (String × β)) (k : String) (v : β) :
    (k, v) ∈ accum [] items ↔ k ∈ items.map Prod.fst ∧ v = sumForKey items k := by
  rw [mem_iff_lookup_of_nodup _ _ _ (nodup_keys_accum [] items (by simp)),
    lookup_accum]
  simp only [List.lookup]
  by_cases hk : k ∈ items.map Prod.fst
  · simp [hk, eq_comm]
  · simp [hk]

/-- Python `list.sort(key=f, reverse=True)`: a stable sort, descending in the
key; ties keep insertion order (merge sort is stable). -/
def sortDesc (f : α → ℚ) (l : List α) : List α :=
  l.mergeSort (fun a b => decide (f b ≤ f a))

theorem sortDesc_perm (f : α → ℚ) (l : List α) : (sortDesc f l).Perm l :=
  List.mergeSort_perm l _

theorem sortDesc_sorted (f : α → ℚ) (l : List α) :
    List.Sorted (fun a b => f b ≤ f a) (sortDesc f l) := by
  have h := @List.sorted_mergeSort _ (fun a b => decide (f b ≤ f a))
    (fun a b c hab hbc => by
      simp only [decide_eq_true_eq] at *
      exact le_trans hbc hab)
    (fun a b => by simpa using le_total (f b) (f a)) l
  exact h.imp (fun hx => by simpa using hx)

theorem sortDesc_mem (f : α → ℚ) (l : List α) (a : α) :
    a ∈ sortDesc f l ↔ a ∈ l :=
  (sortDesc_perm f l).mem_iff

theorem sorted_take {R : α → α → Prop} {l : List α} (h : List.Sorted R l) (n : ℕ) :
    List.Sorted R (l.take n) :=
  List.Pairwise.sublist (List.take_sublist n l) h

/-- A row of the `reviews` table (the fields the engine reads). -/
structure Review where
  user_id : String
  book_id : String
  rating : ℚ
deriving DecidableEq

/-- A row of the `user_interactions` table (the fields the engine reads). -/
structure Interaction where
  user_id : String
  book_id : String
  interaction_weight : ℚ
deriving DecidableEq

/-- A row of the matrix-building SQL query result. -/
structure EventRow where
  user_id : String
  book_id : String
  score : ℚ
deriving DecidableEq

/-- SQL scalar default `COALESCE((SELECT rating FROM reviews WHERE user_id = .. AND book_id = ..), 3)`:
the scalar subquery yields the first matching review's rating, defaulting to 3. -/
def coalesceRating (reviews : List Review) (u b : String) : ℚ :=
  match reviews.find? (fun r => r.user_id == u && r.book_id == b) with
  | some r => r.rating
  | none => 3

/-- The grouped `user_interactions` branch of the matrix query: one row per
(user, book) pair carrying `COALESCE(rating, 3) + SUM(interaction_weight)`.
Groups are listed in first-occurrence order (one realizable `GROUP BY`
output order). -/
def interactionRows (reviews : List Review) (ints : List Interaction) : List EventRow :=
  (dedupFirst (ints.map (fun i => (i.user_id, i.book_id)))).map (fun ub =>
    { user_id := ub.1, book_id := ub.2
      score := coalesceRating reviews ub.1 ub.2 +
        ((ints.filter (fun i => i.user_id == ub.1 && i.book_id == ub.2)).map
          (·.interaction_weight)).sum })

/-- The plain `reviews` branch of the matrix query. -/
def reviewRows (reviews : List Review) : List EventRow :=
  reviews.map (fun r => { user_id := r.user_id, book_id := r.book_id, score := r.rating })

/-- The `UNION` (distinct) of the two branches, in one realizable order.
A SQL `UNION` without `ORDER BY` has no guaranteed row order, so theorems
that depend on the order quantify over permutations of this list. -/
def sqlUnionRows (reviews : List Review) (ints : List Interaction) : List EventRow :=
  dedupFirst (interactionRows reviews ints ++ reviewRows reviews)

/-- The state `build_user_item_matrix` leaves behind:
`self.user_item_matrix`, `self.user_ids`, `self.book_ids`. -/
structure MatrixState where
  matrix : List (String × List (String × ℚ))
  userIds : List String
  bookIds : List String

/-- The Python loop of `build_user_item_matrix` over the query rows (in
whatever order the database returned them): nested dict insertion, so a
later row for the same (user, book) pair overwrites an earlier one; the
user/book id lists collect ids in one realizable `list(set(..))` order. -/
def buildFromRows (rows : List EventRow) : MatrixState :=
  { matrix := rows.foldl (fun m r =>
      dinsert m r.user_id (dinsert ((List.lookup r.user_id m).getD []) r.book_id r.score)) []
    userIds := dedupFirst (rows.map (·.user_id))
    bookIds := dedupFirst (rows.map (·.book_id)) }

/-- Run the SQL query and fold its rows (`build_user_item_matrix`). -/
def build_user_item_matrix (reviews : List Review) (ints : List Interaction) : MatrixState :=
  buildFromRows (sqlUnionRows reviews ints)

/-- The score the interaction matrix holds for a (user, book) pair. -/
def matrixScore (st : MatrixState) (u b : String) : Option ℚ :=
  List.lookup b ((List.lookup u st.matrix).getD [])

/-- Claim C1: for a (user, item) pair with one explicit rating 4 and one implicit
interaction of weight 1.0, the claim says the stored matrix score is
`4 + 1.0 = 5.0` regardless of the order in which the merged rows are
processed.  The SQL `UNION` in fact emits *two* rows for such a pair —
`(u, b, 5.0)` from the grouped-interactions branch and `(u, b, 4)` from the
bare `reviews` branch — and the Python loop is last-write-wins over an
unspecified row order: when the `reviews` row is processed last the stored
score is 4, so the claimed order-independent 5.0 is refuted. -/
theorem C1_matrix_merge_order_dependent :
    sqlUnionRows [⟨"u", "b", 4⟩] [⟨"u", "b", 1⟩] = [⟨"u", "b", 5⟩, ⟨"u", "b", 4⟩]
    ∧ matrixScore (build_user_item_matrix [⟨"u", "b", 4⟩] [⟨"u", "b", 1⟩]) "u" "b" = some 4
    ∧ matrixScore (buildFromRows [⟨"u", "b", 4⟩, ⟨"u", "b", 5⟩]) "u" "b" = some 5
    ∧ ([(⟨"u", "b", 4⟩ : EventRow), ⟨"u", "b", 5⟩] : List EventRow).Perm
        (sqlUnionRows [⟨"u", "b", 4⟩] [⟨"u", "b", 1⟩])
    ∧ ¬ (∀ rows : List EventRow,
          rows.Perm (sqlUnionRows [⟨"u", "b", 4⟩] [⟨"u", "b", 1⟩]) →
          matrixScore (buildFromRows rows) "u" "b" = some (5 : ℚ)) := by
  have hu : sqlUnionRows [⟨"u", "b", 4⟩] [⟨"u", "b", 1⟩] =
      [⟨"u", "b", 5⟩, ⟨"u", "b", 4⟩] := by
    norm_num [sqlUnionRows, interactionRows, reviewRows, dedupFirst, coalesceRating,
      List.find?, List.filter, List.contains, List.elem]
  have h4 : matrixScore (buildFromRows [⟨"u", "b", 5⟩, ⟨"u", "b", 4⟩]) "u" "b" =
      some (4 : ℚ) := by
    norm_num [matrixScore, buildFromRows, dinsert, dedupFirst, List.lookup]
  refine ⟨hu, ?_, ?_, ?_, ?_⟩
  · rw [build_user_item_matrix, hu]; exact h4
  · norm_num [matrixScore, buildFromRows, dinsert, dedupFirst, List.lookup]
  · rw [hu]; exact List.Perm.swap _ _ _
  · intro h
    have h5 := h (sqlUnionRows [⟨"u", "b", 4⟩] [⟨"u", "b", 1⟩]) (List.Perm.refl _)
    rw [hu, h4] at h5
    have : (4 : ℚ) = 5 := by injection h5
    norm_num at this

/-! ## KNN collaborative filtering (`get_knn_recommendations`) -/

/-- The `common_books` list of the KNN loop: pairs
`(target_rating, other_rating)` over the books both users rated, in the
target dict's insertion order. -/
def commonBooks (target other : List (String × ℚ)) : List (ℚ × ℚ) :=
  target.filterMap (fun p => (List.lookup p.1 other).map (fun r => (p.2, r)))

/-- Numerator of the Pearson correlation: `n*sum_product - sum_target*sum_other`. -/
def pearsonNum (cb : List (ℚ × ℚ)) : ℚ :=
  (cb.length : ℚ) * (cb.map (fun p => p.1 * p.2)).sum -
    (cb.map Prod.fst).sum * (cb.map Prod.snd).sum

/-- The radicand of the Pearson denominator:
`(n*sum_target_sq - sum_target^2) * (n*sum_other_sq - sum_other^2)`. -/
def pearsonDenSq (cb : List (ℚ × ℚ)) : ℚ :=
  ((cb.length : ℚ) * (cb.map (fun p => p.1 ^ 2)).sum - (cb.map Prod.fst).sum ^ 2) *
    ((cb.length : ℚ) * (cb.map (fun p => p.2 ^ 2)).sum - (cb.map Prod.snd).sum ^ 2)

/-- The body of the neighbor-scanning loop for one candidate user:
`none` when the pair is skipped (fewer than 2 common books, zero
denominator, or non-positive correlation), `some sim` when a similarity is
recorded.  `sqrt` abstracts `math.sqrt`. -/
def pairSimilarity (sqrt : ℚ → ℚ) (target other : List (String × ℚ)) : Option ℚ :=
  let cb := commonBooks target other
  if cb.length < 2 then none
  else
    let den := sqrt (pearsonDenSq cb)
    if 0 < den then
      let sim := pearsonNum cb / den
      if 0 < sim then some sim else none
    else none

/-- The `similarities` list: one entry per other user that qualifies, in
`self.user_ids` order. -/
def neighborSims (sqrt : ℚ → ℚ) (st : MatrixState) (userId : String)
    (target : List (String × ℚ)) : List (String × ℚ) :=
  st.userIds.filterMap (fun other =>
    if other == userId then none
    else
      let otherRatings := (List.lookup other st.matrix).getD []
      if otherRatings.isEmpty then none
      else (pairSimilarity sqrt target otherRatings).map (fun s => (other, s)))

/-- Python `similarities.sort(key=similarity, reverse=True)[:k]`. -/
def topNeighbors (sqrt : ℚ → ℚ) (st : MatrixState) (userId : String)
    (target : List (String × ℚ)) (k : ℕ) : List (String × ℚ) :=
  (sortDesc Prod.snd (neighborSims sqrt st userId target)).take k

/-- Inner body of the prediction loop for one neighbor of similarity `s`:
skip books the target rated, else `weighted_sum += rating * s` and
`similarity_sum += s` (initializing the entry to `(0, 0)` if absent). -/
def knnInnerStep (targetBooks : List String) (s : ℚ)
    (preds : List (String × (ℚ × ℚ))) (p : String × ℚ) : List (String × (ℚ × ℚ)) :=
  if targetBooks.contains p.1 then preds
  else dinsert preds p.1
    (let cur := (List.lookup p.1 preds).getD (0, 0)
     (cur.1 + p.2 * s, cur.2 + s))

/-- The nested prediction loop: for every neighbor (outer) and every book in
that neighbor's row (inner), run `knnInnerStep`. -/
def knnPredictions (st : MatrixState) (targetBooks : List String)
    (neighbors : List (String × ℚ)) : List (String × (ℚ × ℚ)) :=
  neighbors.foldl (fun preds n =>
    ((List.lookup n.1 st.matrix).getD []).foldl (knnInnerStep targetBooks n.2) preds) []

/-- The contribution stream of the prediction loop, flattened: the same
updates `knnPredictions` performs, as one list of keyed contributions. -/
def knnContribs (st : MatrixState) (targetBooks : List String)
    (neighbors : List (String × ℚ)) : List (String × (ℚ × ℚ)) :=
  neighbors.flatMap (fun n =>
    ((List.lookup n.1 st.matrix).getD []).filterMap (fun p =>
      if targetBooks.contains p.1 then none else some (p.1, (p.2 * n.2, n.2))))

/-- The pre-sort `recommendations` list: predicted rating
`weighted_sum / similarity_sum` for every accumulated book whose
similarity sum is positive. -/
def knnCandidates (st : MatrixState) (target : List (String × ℚ))
    (neighbors : List (String × ℚ)) : List (String × ℚ) :=
  (knnPredictions st (target.map Prod.fst) neighbors).filterMap (fun p =>
    if 0 < p.2.2 then some (p.1, p.2.1 / p.2.2) else none)

/-- The KNN scorer `get_knn_recommendations(user_id, k, limit)` (after the matrix is built):
empty for an unknown user or when no neighbor qualifies; otherwise the
similarity-weighted predictions, sorted descending, truncated to `limit`. -/
def get_knn_recommendations (sqrt : ℚ → ℚ) (st : MatrixState) (userId : String)
    (k limit : ℕ) : List (String × ℚ) :=
  match List.lookup userId st.matrix with
  | none => []
  | some target =>
    let neighbors := topNeighbors sqrt st userId target k
    if neighbors.isEmpty then []
    else (sortDesc Prod.snd (knnCandidates st target neighbors)).take limit

/-! ### Association-list facts used by the KNN proofs -/

theorem lookup_eq_none_of_not_mem_keys (l : List (String × α)) (k : String)
    (h : k ∉ l.map Prod.fst) : List.lookup k l = none := by
  induction l with
  | nil => simp [List.lookup]
  | cons p rest ih =>
    simp only [List.map_cons, List.mem_cons] at h
    push_neg at h
    simp [List.lookup, beq_false_of_ne h.1, ih h.2]

theorem mem_keys_iff_lookup_isSome (l : List (String × α)) (k : String) :
    k ∈ l.map Prod.fst ↔ (List.lookup k l).isSome := by
  induction l with
  | nil => simp [List.lookup]
  | cons p rest ih =>
    by_cases hk : k = p.1
    · simp [List.lookup, hk]
    · simp [List.lookup, beq_false_of_ne hk, hk, ih]

theorem mem_of_lookup_eq_some (l : List (String × α)) (k : String) (v : α)
    (h : List.lookup k l = some v) : (k, v) ∈ l := by
  induction l with
  | nil => simp [List.lookup] at h
  | cons p rest ih =>
    by_cases hk : k = p.1
    · subst hk
      simp only [List.lookup, beq_self_eq_true] at h
      exact List.mem_cons.mpr (Or.inl (by
        obtain ⟨p1, p2⟩ := p
        simp only at h ⊢
        injection h with h
        rw [h]))
    · simp only [List.lookup, beq_false_of_ne hk] at h
      exact List.mem_cons.mpr (Or.inr (ih h))

theorem sumForKey_append [AddMonoid β] (l₁ l₂ : List (String × β)) (k : String) :
    sumForKey (l₁ ++ l₂) k = sumForKey l₁ k + sumForKey l₂ k := by
  simp [sumForKey, List.filter_append]

theorem sumForKey_flatMap [AddMonoid β] (l : List α) (f : α → List (String × β))
    (k : String) :
    sumForKey (l.flatMap f) k = (l.map (fun a => sumForKey (f a) k)).sum := by
  induction l with
  | nil => simp [sumForKey]
  | cons a rest ih => simp [List.flatMap_cons, sumForKey_append, ih]

theorem sumForKey_eq_zero_of_not_mem [AddMonoid β] (l : List (String × β))
    (k : String) (h : k ∉ l.map Prod.fst) : sumForKey l k = 0 := by
  induction l with
  | nil => simp [sumForKey]
  | cons p rest ih =>
    simp only [List.map_cons, List.mem_cons] at h
    push_neg at h
    rw [sumForKey_cons, if_neg (Ne.symm h.1), ih h.2]

/-- The per-neighbor stream of keyed contributions. -/
def rowContribs (targetBooks : List String) (s : ℚ)
    (row : List (String × ℚ)) : List (String × (ℚ × ℚ)) :=
  row.filterMap (fun p =>
    if targetBooks.contains p.1 then none else some (p.1, (p.2 * s, s)))

theorem knnContribs_eq_flatMap (st : MatrixState) (tb : List String)
    (nbrs : List (String × ℚ)) :
    knnContribs st tb nbrs =
      nbrs.flatMap (fun n => rowContribs tb n.2 ((List.lookup n.1 st.matrix).getD [])) := by
  simp [knnContribs, rowContribs]

theorem knnInnerStep_skip (tb : List String) (s : ℚ)
    (preds : List (String × (ℚ × ℚ))) (p : String × ℚ)
    (h : tb.contains p.1 = true) : knnInnerStep tb s preds p = preds := by
  have hm : p.1 ∈ tb := by simpa using h
  simp [knnInnerStep, hm]

theorem knnInnerStep_add (tb : List String) (s : ℚ)
    (preds : List (String × (ℚ × ℚ))) (p : String × ℚ)
    (h : ¬ tb.contains p.1 = true) :
    knnInnerStep tb s preds p =
      dinsert preds p.1 (((List.lookup p.1 preds).getD 0) + (p.2 * s, s)) := by
  simp only [knnInnerStep]
  rw [if_neg h]
  rfl

theorem rowContribs_cons_skip (tb : List String) (s : ℚ) (p : String × ℚ)
    (rest : List (String × ℚ)) (h : tb.contains p.1 = true) :
    rowContribs tb s (p :: rest) = rowContribs tb s rest := by
  have hm : p.1 ∈ tb := by simpa using h
  simp [rowContribs, hm]

theorem rowContribs_cons_add (tb : List String) (s : ℚ) (p : String × ℚ)
    (rest : List (String × ℚ)) (h : ¬ tb.contains p.1 = true) :
    rowContribs tb s (p :: rest) = (p.1, (p.2 * s, s)) :: rowContribs tb s rest := by
  have hm : p.1 ∉ tb := by simpa using h
  simp [rowContribs, hm]

theorem inner_fold_eq_accum (tb : List String) (s : ℚ) (row : List (String × ℚ))
    (preds : List (String × (ℚ × ℚ))) :
    row.foldl (knnInnerStep tb s) preds = accum preds (rowContribs tb s row) := by
  induction row generalizing preds with
  | nil => simp [accum, rowContribs]
  | cons p rest ih =>
    rw [List.foldl_cons]
    by_cases h : tb.contains p.1
    · rw [knnInnerStep_skip _ _ _ _ h, ih, rowContribs_cons_skip _ _ _ _ h]
    · rw [knnInnerStep_add _ _ _ _ h, ih, rowContribs_cons_add _ _ _ _ h]
      rfl

theorem knnPredictions_eq_accum (st : MatrixState) (tb : List String)
    (nbrs : List (String × ℚ)) :
    knnPredictions st tb nbrs = accum [] (knnContribs st tb nbrs) := by
  rw [knnContribs_eq_flatMap]
  suffices h : ∀ preds, nbrs.foldl (fun preds n =>
      ((List.lookup n.1 st.matrix).getD []).foldl (knnInnerStep tb n.2) preds) preds =
      accum preds (nbrs.flatMap
        (fun n => rowContribs tb n.2 ((List.lookup n.1 st.matrix).getD []))) from
    h []
  induction nbrs with
  | nil => intro preds; simp [accum]
  | cons n rest ih =>
    intro preds
    rw [List.foldl_cons, ih, inner_fold_eq_accum, List.flatMap_cons, accum_append]

/-- Sum `Σ neighbor_rating × neighbor_similarity` over all selected neighbors
(a neighbor who did not rate the book contributes 0). -/
def specWeightedSum (st : MatrixState) (nbrs : List (String × ℚ)) (b : String) : ℚ :=
  (nbrs.map (fun n =>
    match List.lookup b ((List.lookup n.1 st.matrix).getD []) with
    | some r => r * n.2
    | none => 0)).sum

/-- Sum `Σ neighbor_similarity` over the selected neighbors who rated the book. -/
def specSimSum (st : MatrixState) (nbrs : List (String × ℚ)) (b : String) : ℚ :=
  (nbrs.map (fun n =>
    if (List.lookup b ((List.lookup n.1 st.matrix).getD [])).isSome then n.2 else 0)).sum

/-- Well-formedness the Python dict-of-dicts guarantees: every row has
duplicate-free book keys. -/
def MatrixWF (st : MatrixState) : Prop :=
  ∀ p ∈ st.matrix, ((p.2.map Prod.fst).Nodup)

theorem fst_list_sum (l : List (ℚ × ℚ)) : l.sum.1 = (l.map Prod.fst).sum := by
  induction l with
  | nil => simp
  | cons p rest ih => simp [ih, Prod.fst_add]

theorem snd_list_sum (l : List (ℚ × ℚ)) : l.sum.2 = (l.map Prod.snd).sum := by
  induction l with
  | nil => simp
  | cons p rest ih => simp [ih, Prod.snd_add]

theorem sumForKey_rowContribs (tb : List String) (s : ℚ) (row : List (String × ℚ))
    (b : String) (hnd : (row.map Prod.fst).Nodup) :
    sumForKey (rowContribs tb s row) b =
      if tb.contains b = true then 0
      else match List.lookup b row with
        | some r => ((r * s, s) : ℚ × ℚ)
        | none => 0 := by
  induction row with
  | nil =>
    simp only [rowContribs, List.filterMap_nil, sumForKey_nil, List.lookup]
    by_cases h : tb.contains b = true
    · rw [if_pos h]
    · rw [if_neg h]
  | cons p rest ih =>
    simp only [List.map_cons, List.nodup_cons] at hnd
    by_cases hp : tb.contains p.1 = true
    · rw [rowContribs_cons_skip _ _ _ _ hp, ih hnd.2]
      by_cases hb : b = p.1
      · subst hb
        rw [if_pos hp, if_pos hp]
      · have hl : List.lookup b (p :: rest) = List.lookup b rest := by
          simp [List.lookup, beq_false_of_ne hb]
        rw [hl]
    · rw [rowContribs_cons_add _ _ _ _ hp, sumForKey_cons, ih hnd.2]
      by_cases hb : p.1 = b
      · subst hb
        rw [if_pos rfl, if_neg hp, if_neg hp]
        have hl0 : List.lookup p.1 rest = none :=
          lookup_eq_none_of_not_mem_keys _ _ hnd.1
        have hl : List.lookup p.1 (p :: rest) = some p.2 := by
          simp [List.lookup]
        rw [hl0, hl]
        simp
      · rw [if_neg hb]
        have hl : List.lookup b (p :: rest) = List.lookup b rest := by
          simp [List.lookup, beq_false_of_ne (fun h => hb h.symm)]
        rw [hl]

theorem mem_keys_rowContribs (tb : List String) (s : ℚ) (row : List (String × ℚ))
    (b : String) :
    b ∈ (rowContribs tb s row).map Prod.fst ↔
      ¬ tb.contains b = true ∧ (List.lookup b row).isSome := by
  induction row with
  | nil => simp [rowContribs, List.lookup]
  | cons p rest ih =>
    by_cases hp : tb.contains p.1 = true
    · rw [rowContribs_cons_skip _ _ _ _ hp, ih]
      by_cases hb : b = p.1
      · subst hb
        constructor <;> (rintro ⟨h1, h2⟩; exact absurd hp h1)
      · rw [show List.lookup b (p :: rest) = List.lookup b rest by
          simp [List.lookup, beq_false_of_ne hb]]
    · rw [rowContribs_cons_add _ _ _ _ hp, List.map_cons]
      rw [List.mem_cons]
      by_cases hb : b = p.1
      · subst hb
        constructor
        · intro _
          refine ⟨hp, ?_⟩
          simp [List.lookup]
        · intro _
          exact Or.inl rfl
      · rw [show List.lookup b (p :: rest) = List.lookup b rest by
          simp [List.lookup, beq_false_of_ne hb]]
        constructor
        · rintro (h | h)
          · exact absurd h hb
          · exact ih.mp h
        · intro h
          exact Or.inr (ih.mpr h)

theorem mem_keys_knnContribs (st : MatrixState) (tb : List String)
    (nbrs : List (String × ℚ)) (b : String) :
    b ∈ (knnContribs st tb nbrs).map Prod.fst ↔
      ¬ tb.contains b = true ∧
        ∃ n ∈ nbrs, (List.lookup b ((List.lookup n.1 st.matrix).getD [])).isSome := by
  rw [knnContribs_eq_flatMap]
  induction nbrs with
  | nil => simp
  | cons n rest ih =>
    simp only [List.flatMap_cons, List.map_append, List.mem_append, ih,
      mem_keys_rowContribs, List.mem_cons]
    constructor
    · rintro (⟨h1, h2⟩ | ⟨h1, n', hn', h2⟩)
      · exact ⟨h1, n, Or.inl rfl, h2⟩
      · exact ⟨h1, n', Or.inr hn', h2⟩
    · rintro ⟨h1, n', hn' | hn', h2⟩
      · subst hn'; exact Or.inl ⟨h1, h2⟩
      · exact Or.inr ⟨h1, n', hn', h2⟩

theorem sumForKey_knnContribs (st : MatrixState) (tb : List String)
    (nbrs : List (String × ℚ)) (b : String) (hWF : MatrixWF st)
    (hb : ¬ tb.contains b = true) :
    sumForKey (knnContribs st tb nbrs) b =
      (specWeightedSum st nbrs b, specSimSum st nbrs b) := by
  rw [knnContribs_eq_flatMap, sumForKey_flatMap]
  have hrows : ∀ n : String × ℚ,
      sumForKey (rowContribs tb n.2 ((List.lookup n.1 st.matrix).getD [])) b =
        match List.lookup b ((List.lookup n.1 st.matrix).getD []) with
        | some r => ((r * n.2, n.2) : ℚ × ℚ)
        | none => 0 := by
    intro n
    have hnd : (((List.lookup n.1 st.matrix).getD []).map Prod.fst).Nodup := by
      cases h : List.lookup n.1 st.matrix with
      | none => simp
      | some row =>
        simpa using hWF (n.1, row) (mem_of_lookup_eq_some _ _ _ h)
    rw [sumForKey_rowContribs _ _ _ _ hnd, if_neg hb]
  refine Prod.ext ?_ ?_
  · rw [fst_list_sum, specWeightedSum, List.map_map]
    congr 1
    apply List.map_congr_left
    intro n _
    simp only [Function.comp_apply, hrows n]
    cases List.lookup b ((List.lookup n.1 st.matrix).getD []) <;> rfl
  · rw [snd_list_sum, specSimSum, List.map_map]
    congr 1
    apply List.map_congr_left
    intro n _
    simp only [Function.comp_apply, hrows n]
    cases List.lookup b ((List.lookup n.1 st.matrix).getD []) <;> rfl

/-- Looking a book up in the finished predictions dict. -/
theorem lookup_knnPredictions (st : MatrixState) (tb : List String)
    (nbrs : List (String × ℚ)) (b : String) (hWF : MatrixWF st) :
    List.lookup b (knnPredictions st tb nbrs) =
      if ¬ tb.contains b = true ∧
          ∃ n ∈ nbrs, (List.lookup b ((List.lookup n.1 st.matrix).getD [])).isSome
      then some (specWeightedSum st nbrs b, specSimSum st nbrs b)
      else none := by
  rw [knnPredictions_eq_accum, lookup_accum]
  simp only [List.lookup]
  by_cases h : ¬ tb.contains b = true ∧
      ∃ n ∈ nbrs, (List.lookup b ((List.lookup n.1 st.matrix).getD [])).isSome
  · rw [if_pos h, if_pos ((mem_keys_knnContribs st tb nbrs b).mpr h),
      sumForKey_knnContribs st tb nbrs b hWF h.1]
  · rw [if_neg h,
      if_neg (fun hm => h ((mem_keys_knnContribs st tb nbrs b).mp hm))]

theorem specSimSum_pos (st : MatrixState) (nbrs : List (String × ℚ)) (b : String)
    (hpos : ∀ n ∈ nbrs, 0 < n.2)
    (h : ∃ n ∈ nbrs, (List.lookup b ((List.lookup n.1 st.matrix).getD [])).isSome) :
    0 < specSimSum st nbrs b := by
  obtain ⟨n₀, hn₀, hsome⟩ := h
  have hnn : ∀ x ∈ nbrs.map (fun n =>
      if (List.lookup b ((List.lookup n.1 st.matrix).getD [])).isSome then n.2 else 0),
      0 ≤ x := by
    intro x hx
    obtain ⟨n, hn, rfl⟩ := List.mem_map.mp hx
    by_cases hs : (List.lookup b ((List.lookup n.1 st.matrix).getD [])).isSome
    · rw [if_pos hs]; exact le_of_lt (hpos n hn)
    · rw [if_neg hs]
  have hterm : n₀.2 ∈ nbrs.map (fun n =>
      if (List.lookup b ((List.lookup n.1 st.matrix).getD [])).isSome then n.2 else 0) :=
    List.mem_map.mpr ⟨n₀, hn₀, by rw [if_pos hsome]⟩
  exact lt_of_lt_of_le (hpos n₀ hn₀) (List.single_le_sum hnn _ hterm)

/-- Membership in the pre-sort KNN recommendation list, characterized:
the books the target has not rated that some selected neighbor rated,
each with the similarity-weighted average rating. -/
theorem mem_knnCandidates_iff (st : MatrixState) (target : List (String × ℚ))
    (nbrs : List (String × ℚ)) (b : String) (p : ℚ) (hWF : MatrixWF st)
    (hpos : ∀ n ∈ nbrs, 0 < n.2) :
    (b, p) ∈ knnCandidates st target nbrs ↔
      (¬ (target.map Prod.fst).contains b = true ∧
       (∃ n ∈ nbrs, (List.lookup b ((List.lookup n.1 st.matrix).getD [])).isSome) ∧
       p = specWeightedSum st nbrs b / specSimSum st nbrs b) := by
  have hnd : ((knnPredictions st (target.map Prod.fst) nbrs).map Prod.fst).Nodup := by
    rw [knnPredictions_eq_accum]
    exact nodup_keys_accum _ _ (by simp)
  constructor
  · intro hmem
    obtain ⟨q, hq, hfq⟩ := List.mem_filterMap.mp hmem
    by_cases hss : 0 < q.2.2
    · rw [if_pos hss] at hfq
      have hpair : (q.1, q.2.1 / q.2.2) = (b, p) := by injection hfq
      obtain ⟨rfl, rfl⟩ : q.1 = b ∧ q.2.1 / q.2.2 = p :=
        ⟨congrArg Prod.fst hpair, congrArg Prod.snd hpair⟩
      have hlook : List.lookup q.1 (knnPredictions st (target.map Prod.fst) nbrs) =
          some q.2 := by
        rw [← mem_iff_lookup_of_nodup _ _ _ hnd]
        exact (show (q.1, q.2) ∈ _ by simpa using hq)
      rw [lookup_knnPredictions st _ nbrs q.1 hWF] at hlook
      by_cases hc : ¬ (target.map Prod.fst).contains q.1 = true ∧
          ∃ n ∈ nbrs, (List.lookup q.1 ((List.lookup n.1 st.matrix).getD [])).isSome
      · rw [if_pos hc] at hlook
        have hq2 : q.2 = (specWeightedSum st nbrs q.1, specSimSum st nbrs q.1) := by
          injection hlook with h; exact h.symm
        exact ⟨hc.1, hc.2, by rw [hq2]⟩
      · rw [if_neg hc] at hlook
        exact absurd hlook (by simp)
    · rw [if_neg hss] at hfq
      exact absurd hfq (by simp)
  · rintro ⟨hb, hex, rfl⟩
    have hlook : List.lookup b (knnPredictions st (target.map Prod.fst) nbrs) =
        some (specWeightedSum st nbrs b, specSimSum st nbrs b) := by
      rw [lookup_knnPredictions st _ nbrs b hWF, if_pos ⟨hb, hex⟩]
    have hmem := (mem_iff_lookup_of_nodup _ _ _ hnd).mpr hlook
    refine List.mem_filterMap.mpr ⟨(b, (specWeightedSum st nbrs b, specSimSum st nbrs b)),
      hmem, ?_⟩
    rw [if_pos (specSimSum_pos st nbrs b hpos hex)]

theorem commonBooks_nil_right (target : List (String × ℚ)) :
    commonBooks target [] = [] := by
  simp [commonBooks, List.lookup]

/-- Unfolding of the similarity computation for one candidate pair. -/
theorem pairSimilarity_eq_some_iff (sqrt : ℚ → ℚ) (target other : List (String × ℚ))
    (s : ℚ) :
    pairSimilarity sqrt target other = some s ↔
      2 ≤ (commonBooks target other).length ∧
      0 < sqrt (pearsonDenSq (commonBooks target other)) ∧
      0 < pearsonNum (commonBooks target other) /
        sqrt (pearsonDenSq (commonBooks target other)) ∧
      s = pearsonNum (commonBooks target other) /
        sqrt (pearsonDenSq (commonBooks target other)) := by
  unfold pairSimilarity
  by_cases h1 : (commonBooks target other).length < 2
  · rw [if_pos h1]
    simp [Nat.not_le.mpr h1]
  · rw [if_neg h1]
    have h1' : 2 ≤ (commonBooks target other).length := Nat.not_lt.mp h1
    by_cases h2 : 0 < sqrt (pearsonDenSq (commonBooks target other))
    · rw [if_pos h2]
      by_cases h3 : 0 < pearsonNum (commonBooks target other) /
          sqrt (pearsonDenSq (commonBooks target other))
      · rw [if_pos h3]
        simp [h1', h2, h3, eq_comm]
      · rw [if_neg h3]
        simp [h3]
    · rw [if_neg h2]
      simp [h2]

/-- Membership in the `similarities` list, characterized: the other users
sharing at least two rated books with the target, with positive Pearson
correlation over the common books. -/
theorem mem_neighborSims_iff (sqrt : ℚ → ℚ) (st : MatrixState) (userId : String)
    (target : List (String × ℚ)) (o : String) (s : ℚ) :
    (o, s) ∈ neighborSims sqrt st userId target ↔
      o ∈ st.userIds ∧ o ≠ userId ∧
      2 ≤ (commonBooks target ((List.lookup o st.matrix).getD [])).length ∧
      0 < sqrt (pearsonDenSq (commonBooks target ((List.lookup o st.matrix).getD []))) ∧
      0 < s ∧
      s = pearsonNum (commonBooks target ((List.lookup o st.matrix).getD [])) /
        sqrt (pearsonDenSq (commonBooks target ((List.lookup o st.matrix).getD []))) := by
  constructor
  · intro hmem
    obtain ⟨o', ho', hf⟩ := List.mem_filterMap.mp hmem
    by_cases he : o' == userId
    · rw [if_pos he] at hf
      exact absurd hf (by simp)
    · rw [if_neg he] at hf
      by_cases hemp : ((List.lookup o' st.matrix).getD []).isEmpty
      · rw [if_pos hemp] at hf
        exact absurd hf (by simp)
      · rw [if_neg hemp] at hf
        obtain ⟨s', hs', heq⟩ := Option.map_eq_some'.mp hf
        obtain ⟨rfl, rfl⟩ : o' = o ∧ s' = s := by
          constructor <;> [exact congrArg Prod.fst heq; exact congrArg Prod.snd heq]
        obtain ⟨hl, hd, hp, hv⟩ := (pairSimilarity_eq_some_iff sqrt target _ s').mp hs'
        exact ⟨ho', by simpa using he, hl, hd, by rw [hv]; exact hp, hv⟩
  · rintro ⟨ho, hne, hl, hd, hs, hv⟩
    refine List.mem_filterMap.mpr ⟨o, ho, ?_⟩
    rw [if_neg (by simpa using hne)]
    have hemp : ¬ ((List.lookup o st.matrix).getD []).isEmpty := by
      intro he
      rw [List.isEmpty_iff.mp he, commonBooks_nil_right] at hl
      simp at hl
    rw [if_neg hemp]
    rw [(pairSimilarity_eq_some_iff sqrt target _ s).mpr ⟨hl, hd, by rw [← hv]; exact hs, hv⟩]
    rfl

/-- Every selected neighbor carries a strictly positive similarity. -/
theorem topNeighbors_pos (sqrt : ℚ → ℚ) (st : MatrixState) (u : String)
    (target : List (String × ℚ)) (k : ℕ) :
    ∀ n ∈ topNeighbors sqrt st u target k, 0 < n.2 := by
  intro n hn
  have h1 : n ∈ sortDesc Prod.snd (neighborSims sqrt st u target) :=
    List.mem_of_mem_take hn
  have h2 : n ∈ neighborSims sqrt st u target := (sortDesc_mem _ _ _).mp h1
  obtain ⟨_, _, _, _, hs, _⟩ := (mem_neighborSims_iff sqrt st u target n.1 n.2).mp h2
  exact hs

/-- The full contract of the KNN scorer for a target user whose matrix row is
`target`: (1) exactly which other users appear in the similarity list, with
which Pearson value; (2) the neighbor list is a descending stable sort of
that list truncated to `k`; (3) no qualifying neighbor means an empty
result; (4) exactly which books get predictions, with the
similarity-weighted average formula; (5) the output is the prediction list
sorted descending and truncated to `limit`. -/
def knnPipelineSpec (sqrt : ℚ → ℚ) (st : MatrixState) (u : String)
    (k limit : ℕ) (target : List (String × ℚ)) : Prop :=
  (∀ o s, (o, s) ∈ neighborSims sqrt st u target ↔
    (o ∈ st.userIds ∧ o ≠ u ∧
     2 ≤ (commonBooks target ((List.lookup o st.matrix).getD [])).length ∧
     0 < sqrt (pearsonDenSq (commonBooks target ((List.lookup o st.matrix).getD []))) ∧
     0 < s ∧
     s = pearsonNum (commonBooks target ((List.lookup o st.matrix).getD [])) /
       sqrt (pearsonDenSq (commonBooks target ((List.lookup o st.matrix).getD [])))))
  ∧ (∃ l', l'.Perm (neighborSims sqrt st u target) ∧
      List.Sorted (fun a b : String × ℚ => b.2 ≤ a.2) l' ∧
      topNeighbors sqrt st u target k = l'.take k)
  ∧ (neighborSims sqrt st u target = [] →
      get_knn_recommendations sqrt st u k limit = [])
  ∧ (∀ b p, (b, p) ∈ knnCandidates st target (topNeighbors sqrt st u target k) ↔
      (¬ (target.map Prod.fst).contains b = true ∧
       (∃ n ∈ topNeighbors sqrt st u target k,
          (List.lookup b ((List.lookup n.1 st.matrix).getD [])).isSome) ∧
       p = specWeightedSum st (topNeighbors sqrt st u target k) b /
           specSimSum st (topNeighbors sqrt st u target k) b))
  ∧ (topNeighbors sqrt st u target k ≠ [] →
      ∃ l', l'.Perm (knnCandidates st target (topNeighbors sqrt st u target k)) ∧
        List.Sorted (fun a b : String × ℚ => b.2 ≤ a.2) l' ∧
        get_knn_recommendations sqrt st u k limit = l'.take limit)

/-- Claim C4: the KNN scorer selects as neighbors exactly the other users who
share at least 2 items with the target and have strictly positive Pearson
correlation, sorted by correlation descending and truncated to the top `k`;
it returns empty when no neighbor qualifies; predictions are the
similarity-weighted averages `(Σ r·s) / (Σ s)` over the neighbors who rated
each target-unseen item, sorted descending, truncated to `limit`. -/
theorem C4_knn_contract (sqrt : ℚ → ℚ) (st : MatrixState) (u : String)
    (k limit : ℕ) (target : List (String × ℚ)) (hWF : MatrixWF st)
    (h : List.lookup u st.matrix = some target) :
    knnPipelineSpec sqrt st u k limit target := by
  refine ⟨fun o s => mem_neighborSims_iff sqrt st u target o s,
    ⟨sortDesc Prod.snd (neighborSims sqrt st u target),
      sortDesc_perm _ _, sortDesc_sorted _ _, rfl⟩, ?_, ?_, ?_⟩
  · intro hsims
    simp only [get_knn_recommendations, h]
    have htop : topNeighbors sqrt st u target k = [] := by
      simp [topNeighbors, sortDesc, hsims]
    rw [htop]
    simp
  · intro b p
    exact mem_knnCandidates_iff st target _ b p hWF (topNeighbors_pos sqrt st u target k)
  · intro hne
    refine ⟨sortDesc Prod.snd (knnCandidates st target (topNeighbors sqrt st u target k)),
      sortDesc_perm _ _, sortDesc_sorted _ _, ?_⟩
    simp only [get_knn_recommendations, h]
    rw [if_neg (fun hi => hne (List.isEmpty_iff.mp hi))]

/-- A concrete interaction matrix used to instantiate the collaborative
filtering theorems: user u0 rated books x and y; user u1 agrees with u0 on
x and y and additionally has score 6 on book z. -/
def knnSt : MatrixState :=
  { matrix := [("u0", [("x", 1), ("y", 2)]), ("u1", [("x", 1), ("y", 2), ("z", 6)])]
    userIds := ["u0", "u1"]
    bookIds := ["x", "y", "z"] }

theorem C4_knn_contract_witness :
    knnPipelineSpec (fun q => q) knnSt "u0" 5 10 [("x", 1), ("y", 2)] :=
  C4_knn_contract (fun q => q) knnSt "u0" 5 10 [("x", 1), ("y", 2)]
    (by
      intro p hp
      simp only [knnSt, List.mem_cons, List.not_mem_nil, or_false] at hp
      rcases hp with rfl | rfl <;> decide)
    (by decide)

/-- Claim C8: two users whose matrix rows agree exactly on their (at least 2)
common items get Pearson similarity exactly 1 whenever the loop computes a
similarity for the pair at all (positive variance term, with the square
root behaving as a square root there); and a user never appears in their
own neighbor list, whatever the matrix. -/
theorem C8_identical_rows_pearson_one (sqrt : ℚ → ℚ)
    (target other : List (String × ℚ)) (st : MatrixState) (u : String) (k : ℕ)
    (hagree : ∀ p ∈ commonBooks target other, p.1 = p.2)
    (hlen : 2 ≤ (commonBooks target other).length)
    (hnum : 0 < pearsonNum (commonBooks target other))
    (hsqrt : sqrt (pearsonNum (commonBooks target other) *
        pearsonNum (commonBooks target other)) =
      pearsonNum (commonBooks target other)) :
    pairSimilarity sqrt target other = some 1 ∧
    u ∉ (topNeighbors sqrt st u ((List.lookup u st.matrix).getD []) k).map Prod.fst := by
  constructor
  · have h2 : (commonBooks target other).map Prod.snd =
        (commonBooks target other).map Prod.fst :=
      List.map_congr_left (fun p hp => (hagree p hp).symm)
    have h3 : (commonBooks target other).map (fun p => p.1 * p.2) =
        (commonBooks target other).map (fun p => p.1 ^ 2) :=
      List.map_congr_left (fun p hp => by rw [← hagree p hp, sq])
    have h4 : (commonBooks target other).map (fun p => p.2 ^ 2) =
        (commonBooks target other).map (fun p => p.1 ^ 2) :=
      List.map_congr_left (fun p hp => by rw [← hagree p hp])
    have hden : pearsonDenSq (commonBooks target other) =
        pearsonNum (commonBooks target other) *
          pearsonNum (commonBooks target other) := by
      unfold pearsonDenSq pearsonNum
      rw [h2, h3, h4]
      ring
    refine (pairSimilarity_eq_some_iff sqrt target other 1).mpr
      ⟨hlen, ?_, ?_, ?_⟩
    · rw [hden, hsqrt]; exact hnum
    · rw [hden, hsqrt, div_self (ne_of_gt hnum)]; exact one_pos
    · rw [hden, hsqrt, div_self (ne_of_gt hnum)]
  · intro hmem
    obtain ⟨x, hx, hfst⟩ := List.mem_map.mp hmem
    have h1 : x ∈ sortDesc Prod.snd
        (neighborSims sqrt st u ((List.lookup u st.matrix).getD [])) :=
      List.mem_of_mem_take hx
    have h2 : x ∈ neighborSims sqrt st u ((List.lookup u st.matrix).getD []) :=
      (sortDesc_mem _ _ _).mp h1
    obtain ⟨_, hne, _⟩ :=
      (mem_neighborSims_iff sqrt st u _ x.1 x.2).mp h2
    exact hne hfst

theorem C8_identical_rows_pearson_one_witness :
    pairSimilarity (fun q => q) [("x", 1), ("y", 2)] [("x", 1), ("y", 2), ("z", 6)]
        = some 1 ∧
    "u0" ∉ (topNeighbors (fun q => q) knnSt "u0"
        ((List.lookup "u0" knnSt.matrix).getD []) 5).map Prod.fst :=
  C8_identical_rows_pearson_one (fun q => q) [("x", 1), ("y", 2)]
    [("x", 1), ("y", 2), ("z", 6)] knnSt "u0" 5
    (by decide)
    (by decide)
    (by
      rw [show commonBooks [("x", (1:ℚ)), ("y", 2)] [("x", 1), ("y", 2), ("z", 6)] =
        [(1, 1), (2, 2)] by decide]
      norm_num [pearsonNum])
    (by
      rw [show commonBooks [("x", (1:ℚ)), ("y", 2)] [("x", 1), ("y", 2), ("z", 6)] =
        [(1, 1), (2, 2)] by decide]
      norm_num [pearsonNum])

/-! ## Hybrid blending (`get_hybrid_recommendations`) and popularity fallback -/

/-- The fixed blend weights `{"content_based": 0.3, "knn": 0.4, "svd": 0.3}`. -/
def wContent : ℚ := 3 / 10

/-- KNN blend weight 0.4. -/
def wKnn : ℚ := 2 / 5

/-- SVD blend weight 0.3. -/
def wSvd : ℚ := 3 / 10

/-- One accumulation pass of the hybrid blender over one source's fetched
recommendations: `if bid not in recommendations: score = 0` then
`score += f(fetched value)`, where `f` applies the source's weighting. -/
def hybridPass (acc : List (String × ℚ)) (recs : List (String × ℚ)) (f : ℚ → ℚ) :
    List (String × ℚ) :=
  recs.foldl (fun acc r => dinsert acc r.1 (((List.lookup r.1 acc).getD 0) + f r.2)) acc

theorem hybridPass_eq_accum (acc recs : List (String × ℚ)) (f : ℚ → ℚ) :
    hybridPass acc recs f = accum acc (recs.map (fun r => (r.1, f r.2))) := by
  rw [accum, List.foldl_map]
  rfl

/-- The hybrid score accumulator after the three passes: content similarities
(times 0.3) if a seed book was given, KNN predictions at `k = 5` (divided
by 5, times 0.4), SVD predictions at `factors = 10` (divided by 5, times
0.3), each source fetched at `2 * limit`.  The content and SVD scorers
enter as oracle functions (their numeric cores are sklearn/numpy library
calls); the KNN scorer is the embedded one. -/
def hybridAccum (sqrt : ℚ → ℚ) (st : MatrixState)
    (contentFn : String → ℕ → List (String × ℚ))
    (svdFn : ℕ → ℕ → List (String × ℚ))
    (userId : String) (bookId : Option String) (limit : ℕ) : List (String × ℚ) :=
  let recs1 := match bookId with
    | some bid => hybridPass [] (contentFn bid (limit * 2)) (fun s => s * wContent)
    | none => []
  let recs2 := hybridPass recs1 (get_knn_recommendations sqrt st userId 5 (limit * 2))
    (fun p => p / 5 * wKnn)
  hybridPass recs2 (svdFn 10 (limit * 2)) (fun p => p / 5 * wSvd)

/-- The hybrid operation `get_hybrid_recommendations(user_id, book_id, limit)`: the accumulated
scores sorted descending, truncated to `limit`.  (The subsequent book-detail
join preserves this order and only drops books missing from the catalog
table.) -/
def get_hybrid_recommendations (sqrt : ℚ → ℚ) (st : MatrixState)
    (contentFn : String → ℕ → List (String × ℚ))
    (svdFn : ℕ → ℕ → List (String × ℚ))
    (userId : String) (bookId : Option String) (limit : ℕ) : List (String × ℚ) :=
  (sortDesc Prod.snd (hybridAccum sqrt st contentFn svdFn userId bookId limit)).take limit

/-- The weighted contribution stream feeding the hybrid accumulator. -/
def hybridContribs (sqrt : ℚ → ℚ) (st : MatrixState)
    (contentFn : String → ℕ → List (String × ℚ))
    (svdFn : ℕ → ℕ → List (String × ℚ))
    (userId : String) (bookId : Option String) (limit : ℕ) : List (String × ℚ) :=
  (match bookId with
   | some bid => (contentFn bid (limit * 2)).map (fun r => (r.1, r.2 * wContent))
   | none => []) ++
  (get_knn_recommendations sqrt st userId 5 (limit * 2)).map
    (fun r => (r.1, r.2 / 5 * wKnn)) ++
  (svdFn 10 (limit * 2)).map (fun r => (r.1, r.2 / 5 * wSvd))

theorem hybridAccum_eq_accum (sqrt : ℚ → ℚ) (st : MatrixState)
    (contentFn : String → ℕ → List (String × ℚ))
    (svdFn : ℕ → ℕ → List (String × ℚ))
    (userId : String) (bookId : Option String) (limit : ℕ) :
    hybridAccum sqrt st contentFn svdFn userId bookId limit =
      accum [] (hybridContribs sqrt st contentFn svdFn userId bookId limit) := by
  rw [hybridAccum.eq_def, hybridContribs.eq_def]
  cases bookId with
  | none =>
    simp only [accum_append, hybridPass_eq_accum]
    rw [show accum ([] : List (String × ℚ)) [] = [] from rfl]
  | some bid =>
    simp only [accum_append, hybridPass_eq_accum]

/-- Claim C2: the hybrid scorer accumulates, per item, content similarity × 0.3
over the top `2*limit` content-similar items of the seed (only when a seed
is given), plus (KNN prediction / 5) × 0.4 over the top `2*limit` KNN
predictions at `k = 5`, plus (SVD prediction / 5) × 0.3 over the top
`2*limit` SVD predictions at `factors = 10`; an item's final score is the
sum over whichever sources scored it, and the output is that accumulator
sorted descending by score, truncated to `limit`. -/
theorem C2_hybrid_blend (sqrt : ℚ → ℚ) (st : MatrixState)
    (contentFn : String → ℕ → List (String × ℚ))
    (svdFn : ℕ → ℕ → List (String × ℚ))
    (userId : String) (bookId : Option String) (limit : ℕ) :
    (∀ b s, (b, s) ∈ hybridAccum sqrt st contentFn svdFn userId bookId limit ↔
      (b ∈ (hybridContribs sqrt st contentFn svdFn userId bookId limit).map Prod.fst ∧
       s = sumForKey (hybridContribs sqrt st contentFn svdFn userId bookId limit) b))
    ∧ (∀ b, sumForKey (hybridContribs sqrt st contentFn svdFn userId bookId limit) b =
        sumForKey (match bookId with
          | some bid => (contentFn bid (limit * 2)).map (fun r => (r.1, r.2 * wContent))
          | none => []) b +
        sumForKey ((get_knn_recommendations sqrt st userId 5 (limit * 2)).map
          (fun r => (r.1, r.2 / 5 * wKnn))) b +
        sumForKey ((svdFn 10 (limit * 2)).map (fun r => (r.1, r.2 / 5 * wSvd))) b)
    ∧ (∃ l', l'.Perm (hybridAccum sqrt st contentFn svdFn userId bookId limit) ∧
        List.Sorted (fun a b : String × ℚ => b.2 ≤ a.2) l' ∧
        get_hybrid_recommendations sqrt st contentFn svdFn userId bookId limit =
          l'.take limit) := by
  refine ⟨?_, ?_, ?_⟩
  · intro b s
    rw [hybridAccum_eq_accum]
    exact mem_accum_iff _ b s
  · intro b
    rw [hybridContribs.eq_def, sumForKey_append, sumForKey_append]
  · exact ⟨sortDesc Prod.snd (hybridAccum sqrt st contentFn svdFn userId bookId limit),
      sortDesc_perm _ _, sortDesc_sorted _ _, rfl⟩

/-- A row of the `books` table (the fields the popularity query orders by). -/
structure BookRec where
  id : String
  average_rating : ℚ
  total_reviews : ℕ
  view_count : ℕ
deriving DecidableEq

/-- Descending lexicographic comparison on two keys: `a` sorts before `b`. -/
def lexDesc2 {κ₁ κ₂ : Type} [LinearOrder κ₁] [LinearOrder κ₂]
    (f : α → κ₁) (g : α → κ₂) (a b : α) : Bool :=
  decide (f b < f a) || (decide (f a = f b) && decide (g b ≤ g a))

/-- Descending lexicographic comparison on three keys. -/
def lexDesc3 {κ₁ κ₂ κ₃ : Type} [LinearOrder κ₁] [LinearOrder κ₂] [LinearOrder κ₃]
    (f : α → κ₁) (g : α → κ₂) (h : α → κ₃) (a b : α) : Bool :=
  decide (f b < f a) || (decide (f a = f b) && lexDesc2 g h a b)

theorem lexDesc2_trans {κ₁ κ₂ : Type} [LinearOrder κ₁] [LinearOrder κ₂]
    (f : α → κ₁) (g : α → κ₂) (a b c : α)
    (hab : lexDesc2 f g a b = true) (hbc : lexDesc2 f g b c = true) :
    lexDesc2 f g a c = true := by
  simp only [lexDesc2, Bool.or_eq_true, Bool.and_eq_true, decide_eq_true_eq] at *
  rcases hab with h1 | ⟨h1, h2⟩ <;> rcases hbc with h3 | ⟨h3, h4⟩
  · exact Or.inl (lt_trans h3 h1)
  · exact Or.inl (h3 ▸ h1)
  · exact Or.inl (by rw [h1]; exact h3)
  · exact Or.inr ⟨h1.trans h3, le_trans h4 h2⟩

theorem lexDesc2_total {κ₁ κ₂ : Type} [LinearOrder κ₁] [LinearOrder κ₂]
    (f : α → κ₁) (g : α → κ₂) (a b : α) :
    (lexDesc2 f g a b || lexDesc2 f g b a) = true := by
  simp only [lexDesc2, Bool.or_eq_true, Bool.and_eq_true, decide_eq_true_eq]
  rcases lt_trichotomy (f a) (f b) with h | h | h
  · exact Or.inr (Or.inl h)
  · rcases le_total (g b) (g a) with h2 | h2
    · exact Or.inl (Or.inr ⟨h, h2⟩)
    · exact Or.inr (Or.inr ⟨h.symm, h2⟩)
  · exact Or.inl (Or.inl h)

theorem lexDesc3_trans {κ₁ κ₂ κ₃ : Type} [LinearOrder κ₁] [LinearOrder κ₂]
    [LinearOrder κ₃] (f : α → κ₁) (g : α → κ₂) (h : α → κ₃) (a b c : α)
    (hab : lexDesc3 f g h a b = true) (hbc : lexDesc3 f g h b c = true) :
    lexDesc3 f g h a c = true := by
  simp only [lexDesc3, Bool.or_eq_true, Bool.and_eq_true, decide_eq_true_eq] at *
  rcases hab with h1 | ⟨h1, h2⟩ <;> rcases hbc with h3 | ⟨h3, h4⟩
  · exact Or.inl (lt_trans h3 h1)
  · exact Or.inl (h3 ▸ h1)
  · exact Or.inl (by rw [h1]; exact h3)
  · exact Or.inr ⟨h1.trans h3, lexDesc2_trans g h a b c h2 h4⟩

theorem lexDesc3_total {κ₁ κ₂ κ₃ : Type} [LinearOrder κ₁] [LinearOrder κ₂]
    [LinearOrder κ₃] (f : α → κ₁) (g : α → κ₂) (h : α → κ₃) (a b : α) :
    (lexDesc3 f g h a b || lexDesc3 f g h b a) = true := by
  simp only [lexDesc3, Bool.or_eq_true, Bool.and_eq_true, decide_eq_true_eq]
  rcases lt_trichotomy (f a) (f b) with h1 | h1 | h1
  · exact Or.inr (Or.inl h1)
  · rcases Bool.or_eq_true _ _ |>.mp (lexDesc2_total g h a b) with h2 | h2
    · exact Or.inl (Or.inr ⟨h1, h2⟩)
    · exact Or.inr (Or.inr ⟨h1.symm, h2⟩)
  · exact Or.inl (Or.inl h1)

/-- SQL `ORDER BY b.average_rating DESC, b.total_reviews DESC, b.view_count DESC`. -/
def popularLe (a b : BookRec) : Bool :=
  lexDesc3 BookRec.average_rating BookRec.total_reviews BookRec.view_count a b

/-- The popularity query `get_popular_books(limit)`: the catalog ordered by (average rating desc,
review count desc, view count desc), truncated to `limit`.  The `ORDER BY`
is modelled as a stable sort of the table (one realizable SQL order; every
realizable order satisfies the comparator, which is what the theorems
state). -/
def get_popular_books (books : List BookRec) (limit : ℕ) : List BookRec :=
  (books.mergeSort popularLe).take limit

theorem get_popular_books_sorted (books : List BookRec) (limit : ℕ) :
    List.Sorted (fun a b => popularLe a b = true) (get_popular_books books limit) :=
  sorted_take (List.sorted_mergeSort
    (fun a b c => lexDesc3_trans _ _ _ a b c)
    (fun a b => lexDesc3_total _ _ _ a b) books) limit

/-- Claim C3, counterexample: with every sub-scorer empty (unknown user, no
seed, empty oracles) the hybrid operation returns the empty list, while the
popularity ranking of a one-book catalog is nonempty — the claimed
popularity fallback does not happen: no caller of the accumulator invokes
`get_popular_books` on the hybrid path. -/
theorem C3_counterexample_no_fallback :
    get_hybrid_recommendations (fun q => q) ⟨[], [], []⟩ (fun _ _ => [])
        (fun _ _ => []) "u" none 10 = ([] : List (String × ℚ))
    ∧ get_popular_books [⟨"b1", 4, 1, 1⟩] 10 = [⟨"b1", 4, 1, 1⟩]
    ∧ get_popular_books [⟨"b1", 4, 1, 1⟩] 10 ≠ [] := by
  refine ⟨?_, ?_, ?_⟩
  · simp [get_hybrid_recommendations, hybridAccum, hybridPass,
      get_knn_recommendations, List.lookup, sortDesc, List.mergeSort]
  · simp [get_popular_books, List.mergeSort]
  · simp [get_popular_books, List.mergeSort]

/-- Claim C3, amended: when all three sub-scorers return empty, the hybrid
operation returns the empty list — no popularity fallback is invoked on
this path.  The popularity query itself does return the top `limit` books
ordered by (average rating desc, review count desc, view count desc). -/
theorem C3_empty_scorers_empty_hybrid (sqrt : ℚ → ℚ) (st : MatrixState)
    (contentFn : String → ℕ → List (String × ℚ))
    (svdFn : ℕ → ℕ → List (String × ℚ))
    (userId : String) (bookId : Option String) (limit : ℕ)
    (books : List BookRec) (limit' : ℕ)
    (hc : ∀ b n, contentFn b n = [])
    (hk : get_knn_recommendations sqrt st userId 5 (limit * 2) = [])
    (hs : ∀ f n, svdFn f n = []) :
    get_hybrid_recommendations sqrt st contentFn svdFn userId bookId limit = []
    ∧ List.Sorted (fun a b => popularLe a b = true) (get_popular_books books limit')
    ∧ (get_popular_books books limit').length = min limit' books.length
    ∧ ∀ x ∈ get_popular_books books limit', x ∈ books := by
  refine ⟨?_, get_popular_books_sorted books limit', ?_, ?_⟩
  · rw [get_hybrid_recommendations, hybridAccum.eq_def]
    cases bookId with
    | none => simp [hybridPass, hk, hs, sortDesc, List.mergeSort]
    | some bid => simp [hybridPass, hk, hs, hc, sortDesc, List.mergeSort]
  · rw [get_popular_books, List.length_take, List.length_mergeSort]
  · intro x hx
    exact (List.mergeSort_perm books popularLe).mem_iff.mp (List.mem_of_mem_take hx)

theorem C3_empty_scorers_empty_hybrid_witness :
    get_hybrid_recommendations (fun q => q) ⟨[], [], []⟩ (fun _ _ => [])
        (fun _ _ => []) "u" none 10 = ([] : List (String × ℚ))
    ∧ List.Sorted (fun a b => popularLe a b = true)
        (get_popular_books [⟨"b1", 4, 1, 1⟩] 7)
    ∧ (get_popular_books [⟨"b1", 4, 1, 1⟩] 7).length =
        min 7 ([⟨"b1", 4, 1, 1⟩] : List BookRec).length
    ∧ ∀ x ∈ get_popular_books [⟨"b1", 4, 1, 1⟩] 7,
        x ∈ ([⟨"b1", 4, 1, 1⟩] : List BookRec) :=
  C3_empty_scorers_empty_hybrid (fun q => q) ⟨[], [], []⟩ (fun _ _ => [])
    (fun _ _ => []) "u" none 10 [⟨"b1", 4, 1, 1⟩] 7
    (fun _ _ => rfl) rfl (fun _ _ => rfl)

/-! ## Bounds on KNN predicted ratings (claim C10) -/

theorem exists_max_mem (l : List ℚ) (hne : l ≠ []) : ∃ m ∈ l, ∀ x ∈ l, x ≤ m := by
  induction l with
  | nil => exact absurd rfl hne
  | cons a rest ih =>
    rcases eq_or_ne rest [] with rfl | hne'
    · exact ⟨a, by simp, by simp⟩
    · obtain ⟨m, hm, hall⟩ := ih hne'
      rcases le_total a m with h | h
      · refine ⟨m, List.mem_cons_of_mem a hm, ?_⟩
        intro x hx
        rcases List.mem_cons.mp hx with rfl | hx
        · exact h
        · exact hall x hx
      · refine ⟨a, List.mem_cons_self a rest, ?_⟩
        intro x hx
        rcases List.mem_cons.mp hx with rfl | hx
        · exact le_refl x
        · exact le_trans (hall x hx) h

theorem exists_min_mem (l : List ℚ) (hne : l ≠ []) : ∃ m ∈ l, ∀ x ∈ l, m ≤ x := by
  induction l with
  | nil => exact absurd rfl hne
  | cons a rest ih =>
    rcases eq_or_ne rest [] with rfl | hne'
    · exact ⟨a, by simp, by simp⟩
    · obtain ⟨m, hm, hall⟩ := ih hne'
      rcases le_total m a with h | h
      · refine ⟨m, List.mem_cons_of_mem a hm, ?_⟩
        intro x hx
        rcases List.mem_cons.mp hx with rfl | hx
        · exact h
        · exact hall x hx
      · refine ⟨a, List.mem_cons_self a rest, ?_⟩
        intro x hx
        rcases List.mem_cons.mp hx with rfl | hx
        · exact le_refl x
        · exact le_trans h (hall x hx)

/-- A positively-weighted average lies below some member of the value list. -/
theorem wavg_le_max (rs : List (ℚ × ℚ)) (hne : rs ≠ [])
    (hpos : ∀ x ∈ rs, 0 < x.2) :
    ∃ hi ∈ rs.map Prod.fst,
      (rs.map (fun x => x.1 * x.2)).sum / (rs.map Prod.snd).sum ≤ hi := by
  obtain ⟨hi, hhim, hhi⟩ := exists_max_mem (rs.map Prod.fst)
    (by simpa using hne)
  have hssum : 0 < (rs.map Prod.snd).sum := by
    refine List.sum_pos _ ?_ (by simpa using hne)
    intro s hs
    obtain ⟨x, hx, rfl⟩ := List.mem_map.mp hs
    exact hpos x hx
  refine ⟨hi, hhim, ?_⟩
  rw [div_le_iff₀ hssum]
  calc (rs.map (fun x => x.1 * x.2)).sum
      ≤ (rs.map (fun x => hi * x.2)).sum := by
        refine List.sum_le_sum ?_
        intro x hx
        exact mul_le_mul_of_nonneg_right
          (hhi x.1 (List.mem_map_of_mem Prod.fst hx)) (le_of_lt (hpos x hx))
    _ = hi * (rs.map Prod.snd).sum := List.sum_map_mul_left rs Prod.snd hi

/-- A positively-weighted average lies above some member of the value list. -/
theorem min_le_wavg (rs : List (ℚ × ℚ)) (hne : rs ≠ [])
    (hpos : ∀ x ∈ rs, 0 < x.2) :
    ∃ lo ∈ rs.map Prod.fst,
      lo ≤ (rs.map (fun x => x.1 * x.2)).sum / (rs.map Prod.snd).sum := by
  obtain ⟨lo, hlom, hlo⟩ := exists_min_mem (rs.map Prod.fst)
    (by simpa using hne)
  have hssum : 0 < (rs.map Prod.snd).sum := by
    refine List.sum_pos _ ?_ (by simpa using hne)
    intro s hs
    obtain ⟨x, hx, rfl⟩ := List.mem_map.mp hs
    exact hpos x hx
  refine ⟨lo, hlom, ?_⟩
  rw [le_div_iff₀ hssum]
  calc lo * (rs.map Prod.snd).sum
      = (rs.map (fun x => lo * x.2)).sum := (List.sum_map_mul_left rs Prod.snd lo).symm
    _ ≤ (rs.map (fun x => x.1 * x.2)).sum := by
        refine List.sum_le_sum ?_
        intro x hx
        exact mul_le_mul_of_nonneg_right
          (hlo x.1 (List.mem_map_of_mem Prod.fst hx)) (le_of_lt (hpos x hx))

/-- The (rating, similarity) pairs of the neighbors that rated book `b`. -/
def ratersOf (st : MatrixState) (nbrs : List (String × ℚ)) (b : String) :
    List (ℚ × ℚ) :=
  nbrs.filterMap (fun n =>
    (List.lookup b ((List.lookup n.1 st.matrix).getD [])).map (fun r => (r, n.2)))

theorem mem_ratersOf (st : MatrixState) (nbrs : List (String × ℚ)) (b : String)
    (x : ℚ × ℚ) :
    x ∈ ratersOf st nbrs b ↔
      ∃ n ∈ nbrs,
        List.lookup b ((List.lookup n.1 st.matrix).getD []) = some x.1 ∧ x.2 = n.2 := by
  rw [ratersOf, List.mem_filterMap]
  constructor
  · rintro ⟨n, hn, hf⟩
    obtain ⟨r, hr, heq⟩ := Option.map_eq_some'.mp hf
    refine ⟨n, hn, ?_, ?_⟩
    · rw [hr]
      exact congrArg some (congrArg Prod.fst heq)
    · exact (congrArg Prod.snd heq).symm
  · rintro ⟨n, hn, hl, hs⟩
    refine ⟨n, hn, ?_⟩
    rw [hl, Option.map_some']
    obtain ⟨x1, x2⟩ := x
    simp only at hs
    rw [hs]

theorem specWS_cons (st : MatrixState) (n : String × ℚ) (rest : List (String × ℚ))
    (b : String) :
    specWeightedSum st (n :: rest) b =
      (match List.lookup b ((List.lookup n.1 st.matrix).getD []) with
        | some r => r * n.2
        | none => 0) + specWeightedSum st rest b := by
  rw [specWeightedSum, List.map_cons, List.sum_cons]
  rfl

theorem specSS_cons (st : MatrixState) (n : String × ℚ) (rest : List (String × ℚ))
    (b : String) :
    specSimSum st (n :: rest) b =
      (if (List.lookup b ((List.lookup n.1 st.matrix).getD [])).isSome then n.2 else 0) +
        specSimSum st rest b := by
  rw [specSimSum, List.map_cons, List.sum_cons]
  rfl

theorem specWS_eq_ratersOf (st : MatrixState) (nbrs : List (String × ℚ)) (b : String) :
    specWeightedSum st nbrs b = ((ratersOf st nbrs b).map (fun x => x.1 * x.2)).sum := by
  induction nbrs with
  | nil => simp [specWeightedSum, ratersOf]
  | cons n rest ih =>
    cases h : List.lookup b ((List.lookup n.1 st.matrix).getD []) with
    | none =>
      have hr : ratersOf st (n :: rest) b = ratersOf st rest b := by
        simp [ratersOf, List.filterMap_cons, h]
      rw [specWS_cons, h, ih, hr]
      simp
    | some r =>
      have hr : ratersOf st (n :: rest) b = (r, n.2) :: ratersOf st rest b := by
        simp [ratersOf, List.filterMap_cons, h]
      rw [specWS_cons, h, ih, hr, List.map_cons, List.sum_cons]

theorem specSS_eq_ratersOf (st : MatrixState) (nbrs : List (String × ℚ)) (b : String) :
    specSimSum st nbrs b = ((ratersOf st nbrs b).map Prod.snd).sum := by
  induction nbrs with
  | nil => simp [specSimSum, ratersOf]
  | cons n rest ih =>
    cases h : List.lookup b ((List.lookup n.1 st.matrix).getD []) with
    | none =>
      have hr : ratersOf st (n :: rest) b = ratersOf st rest b := by
        simp [ratersOf, List.filterMap_cons, h]
      rw [specSS_cons, h, ih, hr]
      simp
    | some r =>
      have hr : ratersOf st (n :: rest) b = (r, n.2) :: ratersOf st rest b := by
        simp [ratersOf, List.filterMap_cons, h]
      rw [specSS_cons, h, ih, hr, List.map_cons, List.sum_cons]
      simp

/-- Concrete KNN run on `knnSt`: u1 is u0's sole neighbor with similarity 1,
and u0's prediction for book z is u1's score 6 — above the 1–5 rating range. -/
theorem knnSt_eval :
    get_knn_recommendations (fun q => q) knnSt "u0" 5 10 = [("z", 6)] := by
  have hps : pairSimilarity (fun q => q) [("x", 1), ("y", 2)]
      [("x", 1), ("y", 2), ("z", 6)] = some 1 := by
    have hcb : commonBooks [("x", (1:ℚ)), ("y", 2)] [("x", 1), ("y", 2), ("z", 6)] =
        [(1, 1), (2, 2)] := by decide
    refine (pairSimilarity_eq_some_iff _ _ _ _).mpr ⟨?_, ?_, ?_, ?_⟩ <;>
      rw [hcb] <;> norm_num [pearsonNum, pearsonDenSq]
  have h1 : neighborSims (fun q => q) knnSt "u0" [("x", 1), ("y", 2)] = [("u1", 1)] := by
    simp [neighborSims, knnSt, List.lookup, hps]
  have h2 : topNeighbors (fun q => q) knnSt "u0" [("x", 1), ("y", 2)] 5 = [("u1", 1)] := by
    simp [topNeighbors, h1, sortDesc, List.mergeSort]
  have h3 : knnCandidates knnSt [("x", 1), ("y", 2)] [("u1", 1)] = [("z", 6)] := by
    have hp : knnPredictions knnSt ["x", "y"] [("u1", 1)] = [("z", (6, 1))] := by
      simp [knnPredictions, knnInnerStep, knnSt, List.lookup, dinsert]
    simp [knnCandidates, hp]
  have hlk : List.lookup "u0" knnSt.matrix = some [("x", 1), ("y", 2)] := by
    simp [knnSt, List.lookup]
  simp only [get_knn_recommendations, hlk]
  rw [h2]
  simp [h3, sortDesc, List.mergeSort]

/-- Claim C10: every KNN-predicted rating is a positively-weighted average of
the matrix scores the selected neighbors hold for that item, so it lies
between two of those neighbor scores (in particular between their minimum
and maximum); and concretely: interaction-matrix scores can exceed 5
(base plus summed implicit weights gives 6 here), a KNN prediction can then
be 6 > 5, and the hybrid's KNN term `(6/5) × 0.4 = 12/25` exceeds the
nominal KNN weight 0.4. -/
theorem C10_knn_prediction_bounds (sqrt : ℚ → ℚ) (st : MatrixState) (u : String)
    (k limit : ℕ) (b : String) (p : ℚ) (hWF : MatrixWF st)
    (hmem : (b, p) ∈ get_knn_recommendations sqrt st u k limit) :
    (∃ target, List.lookup u st.matrix = some target ∧
      (∃ lo, (∃ n ∈ topNeighbors sqrt st u target k,
          List.lookup b ((List.lookup n.1 st.matrix).getD []) = some lo ∧ 0 < n.2) ∧
        lo ≤ p) ∧
      (∃ hi, (∃ n ∈ topNeighbors sqrt st u target k,
          List.lookup b ((List.lookup n.1 st.matrix).getD []) = some hi ∧ 0 < n.2) ∧
        p ≤ hi))
    ∧ matrixScore (build_user_item_matrix [] [⟨"v", "z", 2⟩, ⟨"v", "z", 1⟩]) "v" "z" =
        some 6
    ∧ (5 : ℚ) < 6
    ∧ get_knn_recommendations (fun q => q) knnSt "u0" 5 10 = [("z", 6)]
    ∧ List.lookup "z" (hybridAccum (fun q => q) knnSt (fun _ _ => [])
        (fun _ _ => []) "u0" none 5) = some (12 / 25)
    ∧ wKnn < 12 / 25 := by
  refine ⟨?_, ?_, by norm_num, knnSt_eval, ?_, by norm_num [wKnn]⟩
  · cases hl : List.lookup u st.matrix with
    | none =>
      simp only [get_knn_recommendations, hl] at hmem
      exact absurd hmem (List.not_mem_nil _)
    | some target =>
      simp only [get_knn_recommendations, hl] at hmem
      by_cases hne : (topNeighbors sqrt st u target k).isEmpty
      · rw [if_pos hne] at hmem
        exact absurd hmem (List.not_mem_nil _)
      · rw [if_neg hne] at hmem
        have hcand : (b, p) ∈ knnCandidates st target (topNeighbors sqrt st u target k) :=
          (sortDesc_mem _ _ _).mp (List.mem_of_mem_take hmem)
        obtain ⟨hb, hex, hp⟩ := (mem_knnCandidates_iff st target _ b p hWF
          (topNeighbors_pos sqrt st u target k)).mp hcand
        have hrs_ne : ratersOf st (topNeighbors sqrt st u target k) b ≠ [] := by
          obtain ⟨n₀, hn₀, hsome⟩ := hex
          obtain ⟨r₀, hr₀⟩ := Option.isSome_iff_exists.mp hsome
          exact List.ne_nil_of_mem
            ((mem_ratersOf st _ b (r₀, n₀.2)).mpr ⟨n₀, hn₀, hr₀, rfl⟩)
        have hrs_pos : ∀ x ∈ ratersOf st (topNeighbors sqrt st u target k) b,
            0 < x.2 := by
          intro x hx
          obtain ⟨n, hn, _, hx2⟩ := (mem_ratersOf st _ b x).mp hx
          rw [hx2]
          exact topNeighbors_pos sqrt st u target k n hn
        obtain ⟨lo, hlom, hlo⟩ := min_le_wavg _ hrs_ne hrs_pos
        obtain ⟨hi, hhim, hhi⟩ := wavg_le_max _ hrs_ne hrs_pos
        refine ⟨target, rfl, ?_, ?_⟩
        · obtain ⟨x, hx, hx1⟩ := List.mem_map.mp hlom
          obtain ⟨n, hn, hlk, hx2⟩ := (mem_ratersOf st _ b x).mp hx
          refine ⟨lo, ⟨n, hn, by rw [hlk, hx1], by rw [← hx2]; exact hrs_pos x hx⟩, ?_⟩
          rw [hp, specWS_eq_ratersOf, specSS_eq_ratersOf]
          exact hlo
        · obtain ⟨x, hx, hx1⟩ := List.mem_map.mp hhim
          obtain ⟨n, hn, hlk, hx2⟩ := (mem_ratersOf st _ b x).mp hx
          refine ⟨hi, ⟨n, hn, by rw [hlk, hx1], by rw [← hx2]; exact hrs_pos x hx⟩, ?_⟩
          rw [hp, specWS_eq_ratersOf, specSS_eq_ratersOf]
          exact hhi
  · norm_num [build_user_item_matrix, sqlUnionRows, interactionRows, reviewRows,
      dedupFirst, coalesceRating, buildFromRows, matrixScore, dinsert, List.lookup,
      List.find?, List.filter]
  · have hknn10 : get_knn_recommendations (fun q => q) knnSt "u0" 5 (5 * 2) =
        [("z", 6)] := by
      rw [show (5 * 2 : ℕ) = 10 from rfl]
      exact knnSt_eval
    have hacc : hybridAccum (fun q => q) knnSt (fun _ _ => []) (fun _ _ => [])
        "u0" none 5 = [("z", 12 / 25)] := by
      simp only [hybridAccum]
      rw [hknn10]
      simp [hybridPass, dinsert, List.lookup, wKnn]
      norm_num
    rw [hacc]
    simp [List.lookup]

theorem C10_knn_prediction_bounds_witness :
    (∃ target, List.lookup "u0" knnSt.matrix = some target ∧
      (∃ lo, (∃ n ∈ topNeighbors (fun q => q) knnSt "u0" target 5,
          List.lookup "z" ((List.lookup n.1 knnSt.matrix).getD []) = some lo ∧ 0 < n.2) ∧
        lo ≤ 6) ∧
      (∃ hi, (∃ n ∈ topNeighbors (fun q => q) knnSt "u0" target 5,
          List.lookup "z" ((List.lookup n.1 knnSt.matrix).getD []) = some hi ∧ 0 < n.2) ∧
        (6 : ℚ) ≤ hi))
    ∧ matrixScore (build_user_item_matrix [] [⟨"v", "z", 2⟩, ⟨"v", "z", 1⟩]) "v" "z" =
        some 6
    ∧ (5 : ℚ) < 6
    ∧ get_knn_recommendations (fun q => q) knnSt "u0" 5 10 = [("z", 6)]
    ∧ List.lookup "z" (hybridAccum (fun q => q) knnSt (fun _ _ => [])
        (fun _ _ => []) "u0" none 5) = some (12 / 25)
    ∧ wKnn < 12 / 25 :=
  C10_knn_prediction_bounds (fun q => q) knnSt "u0" 5 10 "z" 6
    (by
      intro p hp
      simp only [knnSt, List.mem_cons, List.not_mem_nil, or_false] at hp
      rcases hp with rfl | rfl <;> decide)
    (by
      rw [knnSt_eval]
      exact List.mem_cons_self _ _)

/-! ## Content-based filtering (`get_content_based_recommendations`) -/

/-- Dot product of two dense vector rows. -/
def dot (v w : List ℚ) : ℚ := (List.zipWith (· * ·) v w).sum

/-- Cosine similarity of two rows; `sqrt` abstracts the float square root
inside the cosine-similarity library call. -/
def cosineSim (sqrt : ℚ → ℚ) (v w : List ℚ) : ℚ :=
  dot v w / (sqrt (dot v v) * sqrt (dot w w))

/-- The library call `cosine_similarity(book_vector, tfidf_matrix).flatten()`: the row of
similarities between row `i` of the matrix and every row. -/
def cosineRow (sqrt : ℚ → ℚ) (mat : List (List ℚ)) (i : ℕ) : List ℚ :=
  mat.map (fun w => cosineSim sqrt (mat.getD i []) w)

/-- Numpy `similarities.argsort()`, modelled as a stable ascending
sort of the indices by value (ties in original index order). -/
def argsortAsc (sims : List ℚ) : List ℕ :=
  (List.range sims.length).mergeSort (fun i j => decide (sims.getD i 0 ≤ sims.getD j 0))

/-- The content scorer `get_content_based_recommendations(book_id, limit)`: empty for a book
absent from the index; otherwise compute the similarity row and take
`argsort()[::-1][1:limit+1]` — reverse the ascending order, drop the first
(assumed self) entry, keep `limit` indices — then keep the entries with
similarity > 0.  `bookVectors` is the id-to-row index, `books` the
row-aligned id list and `simRow` the cosine-similarity call (instantiate
with `cosineRow` over a concrete TF-IDF matrix). -/
def get_content_based_recommendations (bookVectors : List (String × ℕ))
    (books : List String) (simRow : ℕ → List ℚ) (bookId : String) (limit : ℕ) :
    List (String × ℚ) :=
  match List.lookup bookId bookVectors with
  | none => []
  | some idx =>
    let sims := simRow idx
    let order := ((argsortAsc sims).reverse.drop 1).take limit
    order.filterMap (fun i =>
      if 0 < sims.getD i 0 then some (books.getD i "", sims.getD i 0) else none)

/-- Claim C5, counterexample: two books A and B with identical one-term
documents give identical TF-IDF rows, so B's similarity to A ties A's
self-similarity (both exactly 1). The stable ascending argsort of `[1, 1]`
is `[0, 1]`; reversed it is `[1, 0]`, and dropping the first entry removes
index 1 (book B), not the seed — `similarItems(A, …)` returns the seed A
itself, which the claim says never happens. -/
theorem C5_counterexample_seed_in_output :
    cosineRow (fun q => q) [[1], [1]] 0 = [1, 1]
    ∧ get_content_based_recommendations [("A", 0), ("B", 1)] ["A", "B"]
        (cosineRow (fun q => q) [[1], [1]]) "A" 10 = [("A", 1)]
    ∧ "A" ∈ (get_content_based_recommendations [("A", 0), ("B", 1)] ["A", "B"]
        (cosineRow (fun q => q) [[1], [1]]) "A" 10).map Prod.fst := by
  have hrow : cosineRow (fun q => q) [[1], [1]] 0 = [1, 1] := by
    norm_num [cosineRow, cosineSim, dot]
  have hmain : get_content_based_recommendations [("A", 0), ("B", 1)] ["A", "B"]
      (cosineRow (fun q => q) [[1], [1]]) "A" 10 = [("A", 1)] := by
    have hlk : List.lookup "A" [("A", 0), ("B", 1)] = some 0 := by
      simp [List.lookup]
    simp only [get_content_based_recommendations, hlk, hrow]
    have hsort : argsortAsc [1, 1] = [0, 1] := by
      norm_num [argsortAsc, List.mergeSort, List.range_succ]
    rw [hsort]
    norm_num [List.filterMap_cons]
  exact ⟨hrow, hmain, by rw [hmain]; simp⟩

/-! ## SVD matrix factorization (`get_svd_recommendations`) -/

/-- The SVD scorer `get_svd_recommendations(user_id, factors, limit)`: empty for an unknown
user or fewer than 2 users; otherwise, for every indexed book the target
has no entry for, predict the trained dot product
`np.dot(user_factors[target_idx], book_factors[b_idx])`, sort descending,
truncate to `limit`.  The gradient-descent training is numpy code driven by
`np.random`, so the trained prediction surface enters as the oracle
`predict` (the claims proved about this function hold for every oracle);
`factors` only parameterizes that training. -/
def get_svd_recommendations (st : MatrixState) (predict : ℕ → ℕ → ℚ)
    (userId : String) (factors limit : ℕ) : List (String × ℚ) :=
  if (List.lookup userId st.matrix).isNone ∨ st.userIds.length < 2 then []
  else
    match st.userIds.findIdx? (fun uid => uid == userId) with
    | none => []
    | some uIdx =>
      let target := (List.lookup userId st.matrix).getD []
      let recs := (List.range st.bookIds.length).filterMap (fun bIdx =>
        let bid := st.bookIds.getD bIdx ""
        if (List.lookup bid target).isSome then none
        else some (bid, predict uIdx bIdx))
      (sortDesc Prod.snd recs).take limit

theorem mem_dinsert (l : List (String × α)) (k : String) (v : α) (p : String × α)
    (h : p ∈ dinsert l k v) : p ∈ l ∨ p = (k, v) := by
  induction l with
  | nil => simpa [dinsert] using h
  | cons q rest ih =>
    by_cases hq : q.1 = k
    · rw [dinsert, if_pos (by simpa using hq)] at h
      rcases List.mem_cons.mp h with rfl | h
      · exact Or.inr rfl
      · exact Or.inl (List.mem_cons_of_mem q h)
    · rw [dinsert, if_neg (by simpa using hq)] at h
      rcases List.mem_cons.mp h with rfl | h
      · exact Or.inl (List.mem_cons_self _ _)
      · rcases ih h with h | h
        · exact Or.inl (List.mem_cons_of_mem q h)
        · exact Or.inr h

theorem dinsert_ne_nil (l : List (String × α)) (k : String) (v : α) :
    dinsert l k v ≠ [] := by
  cases l with
  | nil => simp [dinsert]
  | cons q rest =>
    rw [dinsert]
    by_cases hq : q.1 == k
    · rw [if_pos hq]; simp
    · rw [if_neg hq]; simp

/-- Invariant of the matrix-building fold: every stored row is nonempty and
all its book keys satisfy `P`, provided every processed row's book does. -/
theorem build_fold_invariant (P : String → Prop) (rows : List EventRow)
    (m0 : List (String × List (String × ℚ)))
    (h0 : ∀ p ∈ m0, p.2 ≠ [] ∧ ∀ q ∈ p.2, P q.1)
    (hP : ∀ r ∈ rows, P r.book_id) :
    ∀ p ∈ rows.foldl (fun m r =>
        dinsert m r.user_id (dinsert ((List.lookup r.user_id m).getD []) r.book_id r.score))
      m0, p.2 ≠ [] ∧ ∀ q ∈ p.2, P q.1 := by
  induction rows generalizing m0 with
  | nil => exact h0
  | cons r rest ih =>
    rw [List.foldl_cons]
    refine ih _ ?_ (fun r' hr' => hP r' (List.mem_cons_of_mem r hr'))
    intro p hp
    rcases mem_dinsert _ _ _ _ hp with hp | rfl
    · exact h0 p hp
    · refine ⟨dinsert_ne_nil _ _ _, ?_⟩
      intro q hq
      rcases mem_dinsert _ _ _ _ hq with hq | rfl
      · cases hrow : List.lookup r.user_id m0 with
        | none => rw [hrow] at hq; simp at hq
        | some row0 =>
          rw [hrow] at hq
          exact (h0 (r.user_id, row0) (mem_of_lookup_eq_some _ _ _ hrow)).2 q hq
      · exact hP r (List.mem_cons_self r rest)

theorem buildFromRows_row_books (rows : List EventRow) (u : String)
    (row : List (String × ℚ))
    (h : List.lookup u (buildFromRows rows).matrix = some row) :
    row ≠ [] ∧ ∀ q ∈ row, q.1 ∈ (buildFromRows rows).bookIds := by
  have hmem : (u, row) ∈ (buildFromRows rows).matrix := mem_of_lookup_eq_some _ _ _ h
  have := build_fold_invariant (fun b => b ∈ (buildFromRows rows).bookIds) rows []
    (by simp)
    (fun r hr => (mem_dedupFirst _ _).mpr (List.mem_map_of_mem _ hr))
    (u, row) hmem
  exact this

/-- Claim C6: the MF/SVD scorer returns an empty list whenever the interaction
matrix has fewer than 2 users or fewer than 2 items.  With at least 2 users
but a single item, the prediction loop finds no item the target has not
already scored (every user in the built matrix has scored the only item),
so the result is empty — whatever the trained factors (`predict`) are. -/
theorem C6_svd_small_matrix_empty (rows : List EventRow) (predict : ℕ → ℕ → ℚ)
    (userId : String) (factors limit : ℕ)
    (h : (buildFromRows rows).userIds.length < 2 ∨
      (buildFromRows rows).bookIds.length < 2) :
    get_svd_recommendations (buildFromRows rows) predict userId factors limit = [] := by
  by_cases hu : (List.lookup userId (buildFromRows rows).matrix).isNone
  · rw [get_svd_recommendations, if_pos (Or.inl hu)]
  · by_cases husers : (buildFromRows rows).userIds.length < 2
    · rw [get_svd_recommendations, if_pos (Or.inr husers)]
    · have hbooks : (buildFromRows rows).bookIds.length < 2 := by
        rcases h with h | h
        · exact absurd h husers
        · exact h
      cases hlk : List.lookup userId (buildFromRows rows).matrix with
      | none => rw [hlk] at hu; simp at hu
      | some target0 =>
        rw [get_svd_recommendations, if_neg (by rw [hlk]; simp [husers])]
        cases hidx : (buildFromRows rows).userIds.findIdx? (fun uid => uid == userId) with
        | none => rfl
        | some uIdx =>
          obtain ⟨hne, hsub⟩ := buildFromRows_row_books rows userId target0 hlk
          rcases (by omega : (buildFromRows rows).bookIds.length = 0 ∨
              (buildFromRows rows).bookIds.length = 1) with h0 | h1
          · rw [h0]
            simp [sortDesc, List.mergeSort]
          · obtain ⟨b, hb⟩ := List.length_eq_one.mp h1
            have hhead : ∃ q rest, target0 = q :: rest ∧ q.1 = b := by
              cases htar : target0 with
              | nil => exact absurd htar hne
              | cons q rest =>
                refine ⟨q, rest, rfl, ?_⟩
                have := hsub q (htar ▸ List.mem_cons_self q rest)
                rw [hb] at this
                simpa using this
            obtain ⟨q, rest, htar, hq1⟩ := hhead
            have hsome : (List.lookup b ((List.lookup userId
                (buildFromRows rows).matrix).getD [])).isSome := by
              rw [hlk, Option.getD_some, htar, ← hq1]
              simp [List.lookup]
            rw [h1, hb, show List.range 1 = [0] from rfl]
            simp [List.filterMap_cons, hsome, sortDesc, List.mergeSort]

theorem C6_svd_small_matrix_empty_witness :
    get_svd_recommendations (buildFromRows [⟨"u1", "b", 4⟩, ⟨"u2", "b", 5⟩])
        (fun _ _ => 0) "u1" 10 10 = [] :=
  C6_svd_small_matrix_empty [⟨"u1", "b", 4⟩, ⟨"u2", "b", 5⟩] (fun _ _ => 0) "u1" 10 10
    (by decide)

/-- Claim C7: a book absent from the content index and a user absent from the
interaction matrix make the content-based, KNN and SVD scorers return the
empty list (the guards are plain dictionary-membership checks; the
embedded functions are total, so no exception is possible on this path). -/
theorem C7_unknown_ids_empty (bookVectors : List (String × ℕ)) (books : List String)
    (simRow : ℕ → List ℚ) (bookId : String) (limit : ℕ) (sqrt : ℚ → ℚ)
    (st : MatrixState) (userId : String) (k limit' : ℕ)
    (predict : ℕ → ℕ → ℚ) (factors limit'' : ℕ)
    (hbook : List.lookup bookId bookVectors = none)
    (huser : List.lookup userId st.matrix = none) :
    get_content_based_recommendations bookVectors books simRow bookId limit = []
    ∧ get_knn_recommendations sqrt st userId k limit' = []
    ∧ get_svd_recommendations st predict userId factors limit'' = [] := by
  refine ⟨?_, ?_, ?_⟩
  · simp only [get_content_based_recommendations, hbook]
  · simp only [get_knn_recommendations, huser]
  · rw [get_svd_recommendations, if_pos (Or.inl (by rw [huser]; rfl))]

theorem C7_unknown_ids_empty_witness :
    get_content_based_recommendations [("A", 0)] ["A"] (fun _ => []) "B" 10 = []
    ∧ get_knn_recommendations (fun q => q) knnSt "nobody" 5 10 = []
    ∧ get_svd_recommendations knnSt (fun _ _ => 0) "nobody" 10 10 = [] :=
  C7_unknown_ids_empty [("A", 0)] ["A"] (fun _ => []) "B" 10 (fun q => q)
    knnSt "nobody" 5 10 (fun _ _ => 0) 10 10 (by decide) (by decide)

/-! ## Personalized recommendations (`get_personalized_recommendations`) -/

/-- A row of the `favorites` table. -/
structure Favorite where
  user_id : String
  book_id : String
deriving DecidableEq

/-- The tables the personalized path reads. -/
structure Db where
  interactions : List Interaction
  reviews : List Review
  favorites : List Favorite
  books : List BookRec
  book_tags : List (String × String)
  tags : List String

/-- The tag-preference query: the user's interactions joined to `book_tags`
and `tags`, grouped by tag (first-occurrence order), with
`SUM(ui.interaction_weight)` per tag, ordered by that score descending
(stable), `LIMIT 5`; yields the preferred tag ids. -/
def prefTags (db : Db) (userId : String) : List String :=
  let rows := (db.interactions.filter (fun i => i.user_id == userId)).flatMap
    (fun i => (db.book_tags.filter
        (fun bt => bt.1 == i.book_id && db.tags.contains bt.2)).map
      (fun bt => (bt.2, i.interaction_weight)))
  let grouped := (dedupFirst (rows.map Prod.fst)).map
    (fun t => (t, ((rows.filter (fun r => r.1 == t)).map Prod.snd).sum))
  ((sortDesc Prod.snd grouped).take 5).map Prod.fst

/-- Exclusion filter `b.id NOT IN (SELECT book_id FROM user_interactions ... UNION reviews
... UNION favorites ...)`. -/
def excludedBook (db : Db) (userId : String) (b : String) : Bool :=
  db.interactions.any (fun i => i.user_id == userId && i.book_id == b) ||
  db.reviews.any (fun r => r.user_id == userId && r.book_id == b) ||
  db.favorites.any (fun f => f.user_id == userId && f.book_id == b)

/-- The count `COUNT(bt.tag_id)` of a book's tags among the preferred ones. -/
def matchingTags (db : Db) (prefs : List String) (b : String) : ℕ :=
  (db.book_tags.filter (fun bt => bt.1 == b && prefs.contains bt.2)).length

/-- SQL `ORDER BY matching_tags DESC, b.average_rating DESC`. -/
def prefOrder (db : Db) (prefs : List String) (a b : BookRec) : Bool :=
  lexDesc2 (fun bk => matchingTags db prefs bk.id) (fun bk => bk.average_rating) a b

/-- The preference-matched query: books with at least one preferred tag
(inner join), excluding books the user interacted with, reviewed or
favorited, ordered by (matching-tag count desc, average rating desc) —
modelled as a stable sort — truncated to `limit`. -/
def prefMatchedBooks (db : Db) (userId : String) (prefs : List String)
    (limit : ℕ) : List BookRec :=
  ((db.books.filter (fun bk =>
      decide (0 < matchingTags db prefs bk.id) && !excludedBook db userId bk.id)).mergeSort
    (prefOrder db prefs)).take limit

/-- The personalized path `get_personalized_recommendations(user_id, limit)`: the popularity
fallback when the preference query is empty, else the preference-matched
books (returned as-is, even when that list is empty). -/
def get_personalized_recommendations (db : Db) (userId : String) (limit : ℕ) :
    List BookRec :=
  let prefs := prefTags db userId
  if prefs.isEmpty then get_popular_books db.books limit
  else prefMatchedBooks db userId prefs limit

/-- A database exhibiting the missing second fallback: user u interacted
with the only (tagged) book, so tag preferences exist but every candidate
is excluded. -/
def db0 : Db :=
  { interactions := [⟨"u", "b1", 1⟩]
    reviews := []
    favorites := []
    books := [⟨"b1", 4, 1, 1⟩]
    book_tags := [("b1", "t")]
    tags := ["t"] }

/-- Claim C9, counterexample: the user has an implicit interaction, so the
tag-preference list is nonempty (["t"]); the preference-matched query
yields nothing (the only matching book is excluded as already
interacted-with), and the operation returns the empty list, not the
(nonempty) popularity ranking the claim promises. -/
theorem C9_counterexample_no_second_fallback :
    prefTags db0 "u" = ["t"]
    ∧ get_personalized_recommendations db0 "u" 10 = []
    ∧ get_popular_books db0.books 10 = [⟨"b1", 4, 1, 1⟩]
    ∧ get_personalized_recommendations db0 "u" 10 ≠ get_popular_books db0.books 10 := by
  have hpref : prefTags db0 "u" = ["t"] := by
    norm_num [prefTags, db0, dedupFirst, sortDesc, List.mergeSort, List.filter,
      List.flatMap, List.contains, List.elem]
  have hmain : get_personalized_recommendations db0 "u" 10 = [] := by
    rw [get_personalized_recommendations]
    rw [hpref]
    have hfil : db0.books.filter (fun bk =>
        decide (0 < matchingTags db0 ["t"] bk.id) && !excludedBook db0 "u" bk.id) = [] := by
      norm_num [db0, matchingTags, excludedBook, List.filter, List.contains, List.elem]
    simp [prefMatchedBooks, hfil, List.mergeSort]
  have hpop : get_popular_books db0.books 10 = [⟨"b1", 4, 1, 1⟩] := by
    simp [get_popular_books, db0, List.mergeSort]
  refine ⟨hpref, hmain, hpop, ?_⟩
  rw [hmain, hpop]
  simp

/-- Claim C9, amended: with no tag preferences the personalized path falls
back to the popularity ranking; with preferences it returns the
preference-matched ranking — catalog books sharing a preferred tag, not
interacted with/reviewed/favorited by the user, ordered by (shared-tag
count desc, average rating desc), truncated to `limit` — even when that
ranking is empty (no popularity fallback on this branch).  The preference
list keeps at most 5 tags. -/
theorem C9_personalized_path (db : Db) (userId : String) (limit : ℕ) :
    (prefTags db userId = [] →
      get_personalized_recommendations db userId limit =
        get_popular_books db.books limit)
    ∧ (prefTags db userId ≠ [] →
      get_personalized_recommendations db userId limit =
        prefMatchedBooks db userId (prefTags db userId) limit)
    ∧ (prefTags db userId).length ≤ 5
    ∧ (prefTags db userId ≠ [] →
        (∀ bk ∈ get_personalized_recommendations db userId limit,
          0 < matchingTags db (prefTags db userId) bk.id ∧
          excludedBook db userId bk.id = false ∧ bk ∈ db.books)
        ∧ List.Sorted (fun a b => prefOrder db (prefTags db userId) a b = true)
            (get_personalized_recommendations db userId limit))
    ∧ (get_personalized_recommendations db userId limit).length ≤ limit := by
  refine ⟨?_, ?_, ?_, ?_, ?_⟩
  · intro h
    rw [get_personalized_recommendations]
    rw [if_pos (List.isEmpty_iff.mpr h)]
  · intro h
    rw [get_personalized_recommendations]
    rw [if_neg (fun he => h (List.isEmpty_iff.mp he))]
  · rw [prefTags]
    calc (((sortDesc Prod.snd _).take 5).map Prod.fst).length
        = ((sortDesc Prod.snd _).take 5).length := List.length_map _ _
      _ ≤ 5 := List.length_take_le _ _
  · intro h
    have heq : get_personalized_recommendations db userId limit =
        prefMatchedBooks db userId (prefTags db userId) limit := by
      rw [get_personalized_recommendations]
      rw [if_neg (fun he => h (List.isEmpty_iff.mp he))]
    constructor
    · intro bk hbk
      rw [heq] at hbk
      have hmemf : bk ∈ db.books.filter (fun bk =>
          decide (0 < matchingTags db (prefTags db userId) bk.id) &&
            !excludedBook db userId bk.id) :=
        (List.mergeSort_perm _ _).mem_iff.mp (List.mem_of_mem_take hbk)
      obtain ⟨hmem, hcond⟩ := List.mem_filter.mp hmemf
      rw [Bool.and_eq_true, Bool.not_eq_true'] at hcond
      exact ⟨by simpa using hcond.1, hcond.2, hmem⟩
    · rw [heq]
      exact sorted_take (List.sorted_mergeSort
        (fun a b c => lexDesc2_trans _ _ a b c)
        (fun a b => lexDesc2_total _ _ a b) _) limit
  · rw [get_personalized_recommendations]
    by_cases h : (prefTags db userId).isEmpty
    · rw [if_pos h]
      exact List.length_take_le _ _
    · rw [if_neg h]
      exact List.length_take_le _ _

end RecSys
